import Mathlib

/-!
# RuleBasedPCG: cellular automata and drunk agent

A shallow embedding of `src/RuleBasedPCG.cpp` (`cellularAutomata`, `digRoom`,
`drunkAgent`) and the properties proved about it.

Conventions of the embedding:
* `int` is `Int`, computed exactly, except in `cellularAutomata32`, which
  computes `count` and the denominator of `cellularAutomata` in 32-bit `int`
  with wrap-around; `cellularAutomata` computes them exactly and returns the
  same grid whenever neither overflows (`cellularAutomata32_eq`).
* `std::vector::operator[]` is checked: an access outside the vector makes the
  embedded function return `none`, as does the remainder by zero in `digRoom`.
* `double` is `Double` below: IEEE-754 binary64 with round-to-nearest-even.
* The random sources are tapes of draws, consumed in order.
-/

namespace RuleBasedPCG

/-! ## IEEE-754 binary64 -/

/-- The values of a C++ `double`: NaN, the two infinities, and the finite values
as rationals (the sign of zero, which no comparison observes, is not kept). -/
inductive Double where
  | nan
  | ninf
  | fin (q : ℚ)
  | pinf

namespace Double

/-- Round a rational to the nearest integer, ties to the even one. -/
def roundHalfEven (x : ℚ) : ℤ :=
  if x - ⌊x⌋ < 1 / 2 then ⌊x⌋
  else if 1 / 2 < x - ⌊x⌋ then ⌊x⌋ + 1
  else if ⌊x⌋ % 2 = 0 then ⌊x⌋ else ⌊x⌋ + 1

/-- The spacing of binary64 values around `q`: `2 ^ (e - 52)` where `e` is the
binary exponent of `q`, not below the least normal exponent `-1022`. -/
def quantum (q : ℚ) : ℚ := (2 : ℚ) ^ (max (Int.log 2 |q|) (-1022) - 52)

/-- Round a rational to binary64 (round to nearest, ties to even; values that
round to `2 ^ 1024` or beyond in magnitude become infinite). -/
def round (q : ℚ) : Double :=
  if (2 : ℚ) ^ 1024 ≤ (roundHalfEven (q / quantum q) : ℚ) * quantum q then pinf
  else if (roundHalfEven (q / quantum q) : ℚ) * quantum q ≤ -(2 : ℚ) ^ 1024 then ninf
  else fin ((roundHalfEven (q / quantum q) : ℚ) * quantum q)

/-- The comparison `a < b` of two doubles (false when either is NaN). -/
def lt : Double → Double → Bool
  | fin a, fin b => decide (a < b)
  | ninf, fin _ => true
  | ninf, pinf => true
  | fin _, pinf => true
  | _, _ => false

/-- The comparison `a > b` of two doubles (false when either is NaN). -/
def gt (a b : Double) : Bool := lt b a

/-- The comparison `a <= b` of two doubles (false when either is NaN). -/
def le : Double → Double → Bool
  | fin a, fin b => decide (a ≤ b)
  | ninf, ninf => true
  | ninf, fin _ => true
  | ninf, pinf => true
  | fin _, pinf => true
  | pinf, pinf => true
  | _, _ => false

/-- The sum `a + b` of two doubles. -/
def add : Double → Double → Double
  | nan, _ => nan
  | _, nan => nan
  | pinf, ninf => nan
  | ninf, pinf => nan
  | pinf, _ => pinf
  | _, pinf => pinf
  | ninf, _ => ninf
  | _, ninf => ninf
  | fin a, fin b => round (a + b)

/-- The quotient `c / double(t)` of two `int`s: both convert to `double`
exactly, so the quotient is the exact quotient correctly rounded; `0 / 0` is
NaN and a non-zero value over zero is infinite. -/
def divInt (c t : Int) : Double :=
  if t = 0 then (if c = 0 then nan else if 0 < c then pinf else ninf)
  else round ((c : ℚ) / (t : ℚ))

end Double

/-! ## Maps -/

/-- The type `Map` of the source: `std::vector<std::vector<int>>`, rows first. -/
abbrev Map := List (List Int)

/-- The map has `H` rows of `W` columns each. -/
def Map.HasShape (m : Map) (W H : Int) : Prop :=
  (m.length : Int) = H ∧ ∀ row ∈ m, (row.length : Int) = W

instance (m : Map) (W H : Int) : Decidable (Map.HasShape m W H) := by
  unfold Map.HasShape; infer_instance

/-- Read `map[y][x]`; `none` when the access is outside a vector. -/
def Map.read (m : Map) (y x : Int) : Option Int :=
  if 0 ≤ y ∧ 0 ≤ x then
    match m[y.toNat]? with
    | some row => row[x.toNat]?
    | none => none
  else none

/-- Write `map[y][x] = v`; `none` when the access is outside a vector. -/
def Map.write (m : Map) (y x : Int) (v : Int) : Option Map :=
  if 0 ≤ y ∧ 0 ≤ x then
    match m[y.toNat]? with
    | some row =>
      if x.toNat < row.length then some (m.set y.toNat (row.set x.toNat v)) else none
    | none => none
  else none

/-- The values `lo, lo + 1, ..., hi` a loop `for (k = lo; k <= hi; ++k)` runs through. -/
def intRange (lo hi : Int) : List Int :=
  List.map (fun (k : Nat) => lo + (k : Int)) (List.range (hi + 1 - lo).toNat)

/-! ## cellularAutomata -/

/-- The two inner loops of `cellularAutomata`: the value of `count` for the cell
`(x, y)`, computed exactly (`neighbourCount32` wraps it around as a 32-bit `int`). -/
def neighbourCount (currentMap : Map) (W H R x y : Int) : Option Int :=
  (intRange (-R) R).foldlM (fun count dy =>
    (intRange (-R) R).foldlM (fun count dx =>
      if dx = 0 ∧ dy = 0 then some count
      else if x + dx ≥ 0 ∧ x + dx < W ∧ y + dy ≥ 0 ∧ y + dy < H then
        (currentMap.read (y + dy) (x + dx)).map (fun v => count + v)
      else some count) count) 0

/-- The value `count / double((2 * R + 1) * (2 * R + 1) - 1)`, the denominator
computed exactly (`ratioOf32` wraps it around as a 32-bit `int`). -/
def ratioOf (count R : Int) : Double :=
  Double.divInt count ((2 * R + 1) * (2 * R + 1) - 1)

/-- The body of the loop over `x`: count the neighbours in `currentMap` and
store the new value of the cell in `newMap`. -/
def updateCell (currentMap newMap : Map) (W H R : Int) (U : Double) (y x : Int) :
    Option Map :=
  (neighbourCount currentMap W H R x y).bind (fun count =>
    newMap.write y x (if Double.gt (ratioOf count R) U then 1 else 0))

/-- The function `cellularAutomata` of the source, with `count` and the
denominator computed exactly (`cellularAutomata32` wraps them around). -/
def cellularAutomata (currentMap : Map) (W H R : Int) (U : Double) : Option Map :=
  (intRange 0 (H - 1)).foldlM (fun newMap y =>
    (intRange 0 (W - 1)).foldlM (fun newMap x =>
      updateCell currentMap newMap W H R U y x) newMap) currentMap

/-! ## Random sources -/

/-- The random draws a call of `drunkAgent` consumes, as three tapes read in
order: the values of `random01(rng)` (uniform in `[0, 1)`), the values of
`directionPick(rng)` (uniform in `0..3`) and the values of `rand()`. -/
structure Rng where
  reals : Nat → ℚ
  dirs : Nat → Fin 4
  rands : Nat → Nat

/-! ## digRoom -/

/-- The expression `rand() % (maxSize - 1) + 2` for the draw `r` of `rand()`
(which is never negative); the remainder by zero is an error. -/
def roomSize (r : Nat) (maxSize : Int) : Option Int :=
  if maxSize - 1 = 0 then none else some (Int.tmod (r : Int) (maxSize - 1) + 2)

/-- The two loops of `digRoom` for the room sizes `rw` and `rh`. -/
def digLoops (map : Map) (x y rw rh mapW mapH : Int) : Option Map :=
  (intRange (y - Int.tdiv rh 2) (y + Int.tdiv rh 2)).foldlM (fun map i =>
    (intRange (x - Int.tdiv rw 2) (x + Int.tdiv rw 2)).foldlM (fun map j =>
      if i ≥ 0 ∧ i < mapH ∧ j ≥ 0 ∧ j < mapW then map.write i j 1 else some map) map) map

/-- The function `digRoom` of the source: it draws `rw` and `rh` from the tape
of `rand()` values, returns the map it was given by reference and the rest of
the tape. -/
def digRoom (map : Map) (x y maxW maxH mapW mapH : Int) (rands : Nat → Nat) :
    Option (Map × (Nat → Nat)) :=
  (roomSize (rands 0) maxW).bind (fun rw =>
    (roomSize (rands 1) maxH).bind (fun rh =>
      (digLoops map x y rw rh mapW mapH).map (fun map1 => (map1, fun n => rands (n + 2)))))

/-! ## drunkAgent -/

/-- The vector `directions` of `drunkAgent`. -/
def directions : Fin 4 → Int × Int
  | 0 => (1, 0)
  | 1 => (-1, 0)
  | 2 => (0, 1)
  | 3 => (0, -1)

/-- The variables of `drunkAgent` that change while it runs. -/
structure AgentState where
  newMap : Map
  probGenerateRoom : Double
  probChangeDirection : Double
  dx : Int
  dy : Int
  agentX : Int
  agentY : Int
  rng : Rng

/-- The room roll of one step on the map `m`: the map, the rest of the `rand()`
tape and the new value of `probGenerateRoom`. -/
def roomRoll (W H roomSizeX roomSizeY : Int) (probIncreaseRoom : Double) (s : AgentState)
    (m : Map) : Option (Map × (Nat → Nat) × Double) :=
  if Double.lt (Double.fin (s.rng.reals 0)) s.probGenerateRoom then
    (digRoom m s.agentX s.agentY roomSizeX roomSizeY W H s.rng.rands).map
      (fun r => (r.1, r.2, Double.round (1 / 10)))
  else some (m, s.rng.rands, Double.add s.probGenerateRoom probIncreaseRoom)

/-- Whether the direction roll of the step succeeds. -/
def turns (s : AgentState) : Bool :=
  Double.lt (Double.fin (s.rng.reals 1)) s.probChangeDirection

/-- The movement vector after the direction roll of the step. -/
def nextDir (s : AgentState) : Int × Int :=
  if turns s then directions (s.rng.dirs 0) else (s.dx, s.dy)

/-- One executed step of `drunkAgent`: the body of the inner loop after the
bounds test. -/
def agentStep (W H roomSizeX roomSizeY : Int) (probIncreaseRoom probIncreaseChange : Double)
    (s : AgentState) : Option AgentState :=
  (s.newMap.write s.agentY s.agentX 1).bind (fun m1 =>
    (roomRoll W H roomSizeX roomSizeY probIncreaseRoom s m1).map (fun r =>
      { newMap := r.1
        probGenerateRoom := r.2.2
        probChangeDirection :=
          if turns s then Double.round (2 / 10)
          else Double.add s.probChangeDirection probIncreaseChange
        dx := (nextDir s).1
        dy := (nextDir s).2
        agentX := max 0 (min (W - 1) (s.agentX + (nextDir s).1))
        agentY := max 0 (min (H - 1) (s.agentY + (nextDir s).2))
        rng :=
          { reals := fun n => s.rng.reals (n + 2)
            dirs := if turns s then (fun n => s.rng.dirs (n + 1)) else s.rng.dirs
            rands := r.2.1 } }))

/-- The inner loop of `drunkAgent` with `n` iterations left: it stops at once
when the walker is outside the map. -/
def walk (W H roomSizeX roomSizeY : Int) (probIncreaseRoom probIncreaseChange : Double) :
    Nat → AgentState → Option AgentState
  | 0, s => some s
  | n + 1, s =>
    if s.agentX < 0 ∨ s.agentX ≥ W ∨ s.agentY < 0 ∨ s.agentY ≥ H then some s
    else (agentStep W H roomSizeX roomSizeY probIncreaseRoom probIncreaseChange s).bind
      (walk W H roomSizeX roomSizeY probIncreaseRoom probIncreaseChange n)

/-- The outer loop of `drunkAgent` with `n` phases left, each of `I` steps. -/
def walks (W H I roomSizeX roomSizeY : Int) (probIncreaseRoom probIncreaseChange : Double) :
    Nat → AgentState → Option AgentState
  | 0, s => some s
  | n + 1, s =>
    (walk W H roomSizeX roomSizeY probIncreaseRoom probIncreaseChange I.toNat s).bind
      (walks W H I roomSizeX roomSizeY probIncreaseRoom probIncreaseChange n)

/-- The state of `drunkAgent` before its loops: `newMap` is a copy of
`currentMap` and the movement vector is `(1, 0)`. -/
def initState (currentMap : Map) (probGenerateRoom probChangeDirection : Double)
    (agentX agentY : Int) (rng : Rng) : AgentState :=
  { newMap := currentMap
    probGenerateRoom := probGenerateRoom
    probChangeDirection := probChangeDirection
    dx := 1
    dy := 0
    agentX := agentX
    agentY := agentY
    rng := rng }

/-- The function `drunkAgent` of the source: the returned map and the values
left in `agentX` and `agentY`. -/
def drunkAgent (currentMap : Map) (W H J I roomSizeX roomSizeY : Int)
    (probGenerateRoom probIncreaseRoom probChangeDirection probIncreaseChange : Double)
    (agentX agentY : Int) (rng : Rng) : Option (Map × Int × Int) :=
  (walks W H I roomSizeX roomSizeY probIncreaseRoom probIncreaseChange J.toNat
    (initState currentMap probGenerateRoom probChangeDirection agentX agentY rng)).map
    (fun s => (s.newMap, s.agentX, s.agentY))

/-! ## Definitions used by the statements -/

/-- `m1` is `m` with the cells of `S` set to `val` and every other cell kept. -/
def Map.PaintedOn (m m1 : Map) (S : Int → Int → Prop) (val : Int → Int → Int) : Prop :=
  (∀ y x, S y x → m1.read y x = some (val y x)) ∧ (∀ y x, ¬ S y x → m1.read y x = m.read y x)

/-- The cell `map[y][x]`, `0` where there is none. -/
def Map.cell (m : Map) (x y : Int) : Int := (m.read y x).getD 0

/-- What the neighbour at offset `(dx, dy)` of `(x, y)` adds to `count`. -/
def neighbourTerm (currentMap : Map) (W H x y dx dy : Int) : Int :=
  if dx = 0 ∧ dy = 0 then 0
  else if x + dx ≥ 0 ∧ x + dx < W ∧ y + dy ≥ 0 ∧ y + dy < H then currentMap.cell (x + dx) (y + dy)
  else 0

/-- The value of `count` for the cell `(x, y)`: the terms of all offsets of the window. -/
def countAt (G : Map) (W H R x y : Int) : Int :=
  ((intRange (-R) R).map (fun dy =>
    ((intRange (-R) R).map (fun dx => neighbourTerm G W H x y dx dy)).sum)).sum

/-- The value `cellularAutomata` stores in the cell `(x, y)`. -/
def newCell (G : Map) (W H R : Int) (U : Double) (y x : Int) : Int :=
  if Double.gt (ratioOf (countAt G W H R x y) R) U then 1 else 0

/-- The sum of the values of the input grid over the in-bounds cells of the
window of radius `R` around `(x, y)`, the centre left out. -/
def windowSum (G : Map) (W H R x y : Int) : Int :=
  ∑ p ∈ (Finset.Icc 0 (W - 1) ×ˢ Finset.Icc 0 (H - 1)).filter
    (fun p => |p.1 - x| ≤ R ∧ |p.2 - y| ≤ R ∧ p ≠ (x, y)), G.cell p.1 p.2

/-- The `W` by `H` map with the value `v` in every cell, as built in `main` by
`Map myMap(mapRows, std::vector<int>(mapCols, 0))`. -/
def constMap (W H : Nat) (v : Int) : Map := List.replicate H (List.replicate W v)

/-- The value `1` when `0 <= a < n` and `0` otherwise. -/
def inRange (a n : Int) : Int := if 0 ≤ a ∧ a < n then 1 else 0

/-- The number of `a` among `x - 1, x, x + 1` with `0 <= a < n`. -/
def axisCount (x n : Int) : Int := inRange (x - 1) n + inRange x n + inRange (x + 1) n

/-- The cells `digRoom` writes for the room sizes `rw` and `rh`: the rectangle
around `(x, y)` cut to the map. -/
def inRoom (x y rw rh mapW mapH i j : Int) : Prop :=
  (y - Int.tdiv rh 2 ≤ i ∧ i ≤ y + Int.tdiv rh 2) ∧
  (x - Int.tdiv rw 2 ≤ j ∧ j ≤ x + Int.tdiv rw 2) ∧
  i ≥ 0 ∧ i < mapH ∧ j ≥ 0 ∧ j < mapW

/-- Every cell of `m1` is `1` or is as in `m`. -/
def Map.Grows (m m1 : Map) : Prop :=
  ∀ y x, m1.read y x = some 1 ∨ m1.read y x = m.read y x

/-- The walker is inside the map, which has `H` rows of `W` columns. -/
def AgentState.Inside (s : AgentState) (W H : Int) : Prop :=
  s.newMap.HasShape W H ∧ 0 ≤ s.agentX ∧ s.agentX < W ∧ 0 ≤ s.agentY ∧ s.agentY < H

/-- The state of a walker that never rolls a room or a turn: both probabilities
are `0`, it heads right, and no draw of `random01` is negative. -/
def AgentState.Straight (s : AgentState) : Prop :=
  s.probGenerateRoom = Double.fin 0 ∧ s.probChangeDirection = Double.fin 0 ∧
  s.dx = 1 ∧ s.dy = 0 ∧ ∀ n, 0 ≤ s.rng.reals n

/-- The tapes on which every draw is `0`. -/
def zeroRng : Rng :=
  { reals := fun _ => 0
    dirs := fun _ => 0
    rands := fun _ => 0 }

namespace Double

/-- The binary exponent used to round `q`: that of `q`, not below `-1022`. -/
def expo (q : ℚ) : ℤ := max (Int.log 2 |q|) (-1022)

/-- The rational nearest to `q` on the binary64 grid around `q`, before the
test for overflow. -/
def nearest (q : ℚ) : ℚ := (roundHalfEven (q / quantum q) : ℚ) * quantum q

end Double

/-- One iteration of the loop of `main` on the map and the walker position:
`cellularAutomata` with `R = 1`, `U = 0.5`, then `drunkAgent` with the
parameters of `main` and the draws `rng` of this call. -/
def mainIteration (rng : Rng) (st : Map × Int × Int) : Option (Map × Int × Int) :=
  (cellularAutomata st.1 20 10 1 (Double.round (1 / 2))).bind (fun myMap =>
    drunkAgent myMap 20 10 5 10 5 3 (Double.round (1 / 10)) (Double.round (5 / 100))
      (Double.round (2 / 10)) (Double.round (3 / 100)) st.2.1 st.2.2 rng)

/-- The loop of `main` with `n` iterations left, `k` done: the maps passed to
`printMap`, in order, and the map and the walker position at the end. -/
def mainLoop (rngs : Nat → Rng) : Nat → Nat → Map × Int × Int →
    Option (List Map × (Map × Int × Int))
  | 0, _, st => some ([], st)
  | n + 1, k, st =>
    (mainIteration (rngs k) st).bind (fun st1 =>
      (mainLoop rngs n (k + 1) st1).map (fun r => (st1.1 :: r.1, r.2)))

/-- The function `main` of the source, for the draws `rngs k` of its `k`-th
call of `drunkAgent`: `mapRows = 10`, `mapCols = 20`, the map of zeros, the
walker at `x = mapRows / 2`, `y = mapCols / 2`, the map printed before the loop
and after each of the `5` iterations. -/
def main (rngs : Nat → Rng) : Option (List Map × (Map × Int × Int)) :=
  (mainLoop rngs 5 0 (constMap 20 10 0, (10 : Int) / 2, (20 : Int) / 2)).map
    (fun r => (constMap 20 10 0 :: r.1, r.2))

/-- The double is a binary64 value: a finite one is kept by rounding. -/
def Double.IsBinary64 : Double → Prop
  | Double.fin q => Double.round q = Double.fin q
  | _ => True

/-- The state of `drunkAgent` at its first step in the scenario of the
specification: the all-zero 20 by 10 grid, the walker at `(10, 5)`, both
probabilities `0`, every draw `0`. -/
def startState : AgentState :=
  initState (constMap 20 10 0) (Double.fin 0) (Double.fin 0) 10 5 zeroRng

/-- The number of in-bounds neighbours of `(x, y)`, in the window of radius `1`,
whose cell is `1`. -/
def onesAround (G : Map) (W H x y : Int) : Nat :=
  ((Finset.Icc 0 (W - 1) ×ˢ Finset.Icc 0 (H - 1)).filter
    (fun p => |p.1 - x| ≤ 1 ∧ |p.2 - y| ≤ 1 ∧ p ≠ (x, y) ∧ G.read p.2 p.1 = some 1)).card

/-! ## cellularAutomata on 32-bit int -/

/-- The value a 32-bit `int` holds after an operation whose exact result is
`n`: `n` reduced modulo `2^32` into `[-2^31, 2^31)` (wrap-around). -/
def wrapInt (n : Int) : Int := (n + 2147483648) % 4294967296 - 2147483648

/-- The two inner loops of `cellularAutomata` with `count` as a 32-bit `int`:
`count += currentMap[ny][nx]` wraps around. The sums `x + dx`, `y + dy` are
not wrapped: for `int` arguments with `0 <= x < W` and `0 <= y < H` a sum that
overflows wraps to a negative value and fails the bounds test, as the exact sum
does. The loops are those of a radius `R < INT_MAX`, for which they end. -/
def neighbourCount32 (currentMap : Map) (W H R x y : Int) : Option Int :=
  (intRange (-R) R).foldlM (fun count dy =>
    (intRange (-R) R).foldlM (fun count dx =>
      if dx = 0 ∧ dy = 0 then some count
      else if x + dx ≥ 0 ∧ x + dx < W ∧ y + dy ≥ 0 ∧ y + dy < H then
        (currentMap.read (y + dy) (x + dx)).map (fun v => wrapInt (count + v))
      else some count) count) 0

/-- The `int` expression `(2 * R + 1) * (2 * R + 1) - 1`, every operation
wrapping around. -/
def denominator32 (R : Int) : Int :=
  wrapInt (wrapInt (wrapInt (wrapInt (2 * R) + 1) * wrapInt (wrapInt (2 * R) + 1)) - 1)

/-- The value `count / double((2 * R + 1) * (2 * R + 1) - 1)` with the
denominator computed in 32-bit `int`. -/
def ratioOf32 (count R : Int) : Double := Double.divInt count (denominator32 R)

/-- The body of the loop over `x`, on 32-bit `int`. -/
def updateCell32 (currentMap newMap : Map) (W H R : Int) (U : Double) (y x : Int) :
    Option Map :=
  (neighbourCount32 currentMap W H R x y).bind (fun count =>
    newMap.write y x (if Double.gt (ratioOf32 count R) U then 1 else 0))

/-- The function `cellularAutomata` of the source with `count` and the
denominator computed in 32-bit `int`, wrapping around on overflow. -/
def cellularAutomata32 (currentMap : Map) (W H R : Int) (U : Double) : Option Map :=
  (intRange 0 (H - 1)).foldlM (fun newMap y =>
    (intRange 0 (W - 1)).foldlM (fun newMap x =>
      updateCell32 currentMap newMap W H R U y x) newMap) currentMap

/-- The value `cellularAutomata32` stores in the cell `(x, y)`. -/
def newCell32 (G : Map) (W H R : Int) (U : Double) (y x : Int) : Int :=
  if Double.gt (ratioOf32 (wrapInt (countAt G W H R x y)) R) U then 1 else 0

/-! ## Ranges and map accesses -/

theorem mem_intRange (lo hi k : Int) : k ∈ intRange lo hi ↔ lo ≤ k ∧ k ≤ hi := by
  unfold intRange
  simp only [List.mem_map, List.mem_range]
  constructor
  · rintro ⟨n, hn, rfl⟩
    omega
  · rintro ⟨h1, h2⟩
    exact ⟨(k - lo).toNat, by omega, by omega⟩

theorem intRange_nodup (lo hi : Int) : (intRange lo hi).Nodup := by
  unfold intRange
  refine List.Nodup.map ?_ (List.nodup_range _)
  intro a b h
  simpa using h

theorem Map.read_write {m m1 : Map} {y x v : Int} (h : m.write y x v = some m1)
    (y1 x1 : Int) :
    m1.read y1 x1 = if y1 = y ∧ x1 = x then some v else m.read y1 x1 := by
  unfold Map.write at h
  split at h
  · rename_i hyx
    split at h
    · rename_i row hrow
      split at h
      · rename_i hx
        simp only [Option.some.injEq] at h
        subst h
        unfold Map.read
        by_cases h1 : 0 ≤ y1 ∧ 0 ≤ x1
        · simp only [h1, and_self, if_true]
          by_cases hy : y1 = y
          · subst hy
            have hlen : y1.toNat < m.length := by
              rcases List.getElem?_eq_some.1 hrow with ⟨hl, _⟩
              exact hl
            simp only [List.getElem?_set_self, hlen, hrow, true_and, List.getElem?_eq_getElem, List.getElem_set_self, List.length_set]
            by_cases hxx : x1 = x
            · subst hxx
              simp [hx]
            · have : x.toNat ≠ x1.toNat := by omega
              simp [hxx, List.getElem?_set_ne this]
          · have : y.toNat ≠ y1.toNat := by omega
            simp [hy, List.getElem?_set_ne this]
        · have : ¬ (y1 = y ∧ x1 = x) := by
            rintro ⟨rfl, rfl⟩
            exact h1 hyx
          simp [h1, this]
      · exact absurd h (by simp)
    · exact absurd h (by simp)
  · exact absurd h (by simp)

theorem Map.shape_write {m m1 : Map} {y x v W H : Int} (h : m.write y x v = some m1)
    (hs : m.HasShape W H) : m1.HasShape W H := by
  unfold Map.write at h
  split at h
  · split at h
    · rename_i row hrow
      split at h
      · simp only [Option.some.injEq] at h
        subst h
        refine ⟨by simpa using hs.1, ?_⟩
        intro r hr
        rcases List.mem_or_eq_of_mem_set hr with h1 | h1
        · exact hs.2 r h1
        · subst h1
          rw [List.length_set]
          exact hs.2 row (List.getElem?_mem hrow)
      · exact absurd h (by simp)
    · exact absurd h (by simp)
  · exact absurd h (by simp)

theorem Map.row_of_shape {m : Map} {W H y : Int} (hs : m.HasShape W H) (hy0 : 0 ≤ y)
    (hy : y < H) : ∃ row, m[y.toNat]? = some row ∧ (row.length : Int) = W := by
  have hlen : y.toNat < m.length := by
    have := hs.1
    omega
  exact ⟨m[y.toNat], List.getElem?_eq_getElem hlen, hs.2 _ (List.getElem_mem _)⟩

theorem Map.write_isSome {m : Map} {W H y x : Int} (v : Int) (hs : m.HasShape W H)
    (hy0 : 0 ≤ y) (hy : y < H) (hx0 : 0 ≤ x) (hx : x < W) :
    ∃ m1, m.write y x v = some m1 := by
  obtain ⟨row, hrow, hl⟩ := Map.row_of_shape hs hy0 hy
  have : x.toNat < row.length := by omega
  simp [Map.write, hy0, hx0, hrow, this]

theorem Map.read_isSome {m : Map} {W H y x : Int} (hs : m.HasShape W H)
    (hy0 : 0 ≤ y) (hy : y < H) (hx0 : 0 ≤ x) (hx : x < W) :
    ∃ v, m.read y x = some v := by
  obtain ⟨row, hrow, hl⟩ := Map.row_of_shape hs hy0 hy
  have : x.toNat < row.length := by omega
  exact ⟨row[x.toNat], by simp [Map.read, hy0, hx0, hrow, this]⟩

/-! ## Loops that paint cells -/

theorem paint_fold {κ : Type} (S : κ → Int → Int → Prop) (val : Int → Int → Int)
    (body : Map → κ → Option Map) (W H : Int) (l : List κ)
    (hbody : ∀ m k, m.HasShape W H → k ∈ l →
      ∃ m1, body m k = some m1 ∧ m1.HasShape W H ∧ m.PaintedOn m1 (S k) val)
    (m : Map) (hs : m.HasShape W H) :
    ∃ m1, l.foldlM body m = some m1 ∧ m1.HasShape W H ∧
      m.PaintedOn m1 (fun y x => ∃ k ∈ l, S k y x) val := by
  induction l generalizing m with
  | nil =>
    exact ⟨m, rfl, hs, by simp [Map.PaintedOn]⟩
  | cons k l ih =>
    obtain ⟨m1, h1, hs1, hp1⟩ := hbody m k hs (List.mem_cons_self _ _)
    obtain ⟨m2, h2, hs2, hp2⟩ :=
      ih (fun m0 k0 h0 hk0 => hbody m0 k0 h0 (List.mem_cons_of_mem _ hk0)) m1 hs1
    refine ⟨m2, ?_, hs2, ?_, ?_⟩
    · simp [List.foldlM_cons, h1, h2]
    · intro y x hS
      by_cases hl : ∃ k0 ∈ l, S k0 y x
      · exact hp2.1 y x hl
      · rw [hp2.2 y x hl]
        rcases hS with ⟨k0, hk0, hk0S⟩
        rcases List.mem_cons.1 hk0 with rfl | hk0l
        · exact hp1.1 y x hk0S
        · exact absurd ⟨k0, hk0l, hk0S⟩ hl
    · intro y x hS
      have hl : ¬ ∃ k0 ∈ l, S k0 y x := fun ⟨k0, hk0, hk0S⟩ =>
        hS ⟨k0, List.mem_cons_of_mem _ hk0, hk0S⟩
      have hk : ¬ S k y x := fun h => hS ⟨k, List.mem_cons_self _ _, h⟩
      rw [hp2.2 y x hl, hp1.2 y x hk]

theorem foldlM_add {α : Type} (f : α → Int) (body : Int → α → Option Int) (l : List α)
    (hbody : ∀ d ∈ l, ∀ c, body c d = some (c + f d)) (c0 : Int) :
    l.foldlM body c0 = some (c0 + (l.map f).sum) := by
  induction l generalizing c0 with
  | nil => simp
  | cons d l ih =>
    rw [List.foldlM_cons, hbody d (List.mem_cons_self _ _)]
    simp only [Option.bind_eq_bind, Option.some_bind, List.map_cons, List.sum_cons]
    rw [ih (fun d0 h0 => hbody d0 (List.mem_cons_of_mem _ h0))]
    congr 1
    ring

theorem neighbourCount_eq {G : Map} {W H : Int} (hs : G.HasShape W H) (R x y : Int) :
    neighbourCount G W H R x y =
      some (((intRange (-R) R).map (fun dy =>
        ((intRange (-R) R).map (fun dx => neighbourTerm G W H x y dx dy)).sum)).sum) := by
  unfold neighbourCount
  rw [foldlM_add (fun dy => ((intRange (-R) R).map (fun dx => neighbourTerm G W H x y dx dy)).sum)]
  · simp
  · intro dy _ c
    apply foldlM_add
    intro dx _ c1
    unfold neighbourTerm
    by_cases h0 : dx = 0 ∧ dy = 0
    · simp [h0]
    · simp only [h0, if_false]
      by_cases hb : x + dx ≥ 0 ∧ x + dx < W ∧ y + dy ≥ 0 ∧ y + dy < H
      · obtain ⟨v, hv⟩ := Map.read_isSome hs hb.2.2.1 hb.2.2.2 hb.1 hb.2.1
        simp [hb, Map.cell, hv]
      · simp [hb]

/-! ## The cells of cellularAutomata -/

theorem intRange_toFinset (lo hi : Int) : (intRange lo hi).toFinset = Finset.Icc lo hi := by
  ext k
  simp [mem_intRange]

theorem sum_intRange (f : Int → Int) (lo hi : Int) :
    ((intRange lo hi).map f).sum = ∑ k ∈ Finset.Icc lo hi, f k := by
  rw [← intRange_toFinset, List.sum_toFinset f (intRange_nodup lo hi)]

theorem countAt_eq_windowSum (G : Map) (W H R x y : Int) :
    countAt G W H R x y = windowSum G W H R x y := by
  unfold countAt windowSum
  rw [sum_intRange]
  simp only [sum_intRange]
  rw [← Finset.sum_product_right (Finset.Icc (-R) R) (Finset.Icc (-R) R)
    (fun q => neighbourTerm G W H x y q.1 q.2)]
  have hterm : ∀ q : Int × Int, neighbourTerm G W H x y q.1 q.2 =
      if (¬ (q.1 = 0 ∧ q.2 = 0) ∧ (x + q.1 ≥ 0 ∧ x + q.1 < W ∧ y + q.2 ≥ 0 ∧ y + q.2 < H))
      then G.cell (x + q.1) (y + q.2) else 0 := by
    intro q
    unfold neighbourTerm
    by_cases h0 : q.1 = 0 ∧ q.2 = 0
    · simp [h0]
    · simp [h0]
  simp only [hterm]
  rw [← Finset.sum_filter]
  refine Finset.sum_nbij' (fun q => (x + q.1, y + q.2)) (fun p => (p.1 - x, p.2 - y))
    ?_ ?_ ?_ ?_ ?_
  · intro q hq
    simp only [Finset.mem_filter, Finset.mem_product, Finset.mem_Icc, Finset.mem_coe] at hq ⊢
    refine ⟨⟨⟨by omega, by omega⟩, ⟨by omega, by omega⟩⟩, ?_, ?_, ?_⟩
    · rw [abs_le]; constructor <;> omega
    · rw [abs_le]; constructor <;> omega
    · intro h
      rw [Prod.mk.injEq] at h
      exact hq.2.1 ⟨by omega, by omega⟩
  · intro p hp
    simp only [Finset.mem_filter, Finset.mem_product, Finset.mem_Icc, Finset.mem_coe] at hp ⊢
    obtain ⟨⟨⟨h1, h2⟩, h3, h4⟩, h5, h6, h7⟩ := hp
    rw [abs_le] at h5 h6
    refine ⟨⟨⟨by omega, by omega⟩, ⟨by omega, by omega⟩⟩, ?_, by omega, by omega, by omega, by omega⟩
    intro h
    apply h7
    ext <;> simp <;> omega
  · intro q _
    ext <;> simp
  · intro p _
    ext <;> simp
  · intro q _
    rfl

theorem updateCell_spec {G m : Map} {W H : Int} (R : Int) (U : Double) (hG : G.HasShape W H)
    (hm : m.HasShape W H) {y x : Int} (hy0 : 0 ≤ y) (hy : y < H) (hx0 : 0 ≤ x) (hx : x < W) :
    ∃ m1, updateCell G m W H R U y x = some m1 ∧ m1.HasShape W H ∧
      m.PaintedOn m1 (fun y1 x1 => y1 = y ∧ x1 = x) (newCell G W H R U) := by
  obtain ⟨m1, h1⟩ := Map.write_isSome (newCell G W H R U y x) hm hy0 hy hx0 hx
  refine ⟨m1, ?_, Map.shape_write h1 hm, ?_, ?_⟩
  · unfold updateCell
    rw [neighbourCount_eq hG]
    exact h1
  · rintro y1 x1 ⟨rfl, rfl⟩
    rw [Map.read_write h1]
    simp
  · intro y1 x1 hne
    rw [Map.read_write h1]
    simp [hne]

theorem cellularAutomata_spec {G : Map} {W H : Int} (R : Int) (U : Double)
    (hG : G.HasShape W H) :
    ∃ G1, cellularAutomata G W H R U = some G1 ∧ G1.HasShape W H ∧
      ∀ x y, 0 ≤ x → x < W → 0 ≤ y → y < H → G1.read y x = some (newCell G W H R U y x) := by
  obtain ⟨G1, h1, hs1, hp1⟩ := paint_fold
    (fun y y1 x1 => y1 = y ∧ 0 ≤ x1 ∧ x1 < W) (newCell G W H R U)
    (fun newMap y => (intRange 0 (W - 1)).foldlM (fun newMap x =>
      updateCell G newMap W H R U y x) newMap) W H (intRange 0 (H - 1))
    (by
      intro m y hm hy
      rw [mem_intRange] at hy
      obtain ⟨m1, h1, hs1, hp1⟩ := paint_fold
        (fun x y1 x1 => y1 = y ∧ x1 = x) (newCell G W H R U)
        (fun newMap x => updateCell G newMap W H R U y x) W H (intRange 0 (W - 1))
        (by
          intro m0 x hm0 hx
          rw [mem_intRange] at hx
          exact updateCell_spec R U hG hm0 hy.1 (by omega) hx.1 (by omega))
        m hm
      refine ⟨m1, h1, hs1, ?_, ?_⟩
      · rintro y1 x1 ⟨rfl, h0, hW⟩
        exact hp1.1 y1 x1 ⟨x1, (mem_intRange _ _ _).2 ⟨h0, by omega⟩, rfl, rfl⟩
      · intro y1 x1 hne
        apply hp1.2
        rintro ⟨x0, hx0, rfl, rfl⟩
        rw [mem_intRange] at hx0
        exact hne ⟨rfl, hx0.1, by omega⟩)
    G hG
  refine ⟨G1, h1, hs1, ?_⟩
  intro x y hx0 hx hy0 hy
  exact hp1.1 y x ⟨y, (mem_intRange _ _ _).2 ⟨hy0, by omega⟩, rfl, hx0, hx⟩

/-! ## Exact roundings -/

namespace Double

theorem roundHalfEven_intCast (z : ℤ) : roundHalfEven (z : ℚ) = z := by
  unfold roundHalfEven
  simp

theorem round_of_int_mul_quantum (q : ℚ) (z : ℤ) (hz : q / quantum q = (z : ℚ))
    (hb : |q| < (2 : ℚ) ^ 1024) : round q = fin q := by
  have hq0 : quantum q ≠ 0 := by
    unfold quantum
    exact zpow_ne_zero _ (by norm_num)
  have hr : (roundHalfEven (q / quantum q) : ℚ) * quantum q = q := by
    rw [hz, roundHalfEven_intCast, ← hz, div_mul_cancel₀ _ hq0]
  rw [abs_lt] at hb
  unfold round
  rw [hr, if_neg (not_le.2 hb.2), if_neg (by linarith [hb.1])]

theorem round_zero : round 0 = fin 0 :=
  round_of_int_mul_quantum 0 0 (by simp) (by norm_num)

/-- A dyadic rational with a mantissa of at most 53 bits and an exponent in the
binary64 range is a binary64 value: rounding keeps it. -/
theorem round_dyadic (c k : ℤ) (hc : |c| < 2 ^ 53) (hk : -1074 ≤ k)
    (hb : |(c : ℚ) * (2 : ℚ) ^ k| < (2 : ℚ) ^ 1024) :
    round ((c : ℚ) * (2 : ℚ) ^ k) = fin ((c : ℚ) * (2 : ℚ) ^ k) := by
  by_cases hc0 : c = 0
  · subst hc0
    simpa using round_zero
  have h2k : (0 : ℚ) < (2 : ℚ) ^ k := zpow_pos (by norm_num) k
  have hqpos : (0 : ℚ) < |(c : ℚ) * (2 : ℚ) ^ k| :=
    abs_pos.2 (mul_ne_zero (by exact_mod_cast hc0) (ne_of_gt h2k))
  have hlt : |(c : ℚ) * (2 : ℚ) ^ k| < ((2 : ℕ) : ℚ) ^ (53 + k) := by
    rw [abs_mul, abs_of_pos h2k, Nat.cast_ofNat, zpow_add₀ (by norm_num : (2 : ℚ) ≠ 0)]
    apply mul_lt_mul_of_pos_right _ h2k
    have : ((|c| : ℤ) : ℚ) < ((2 ^ 53 : ℤ) : ℚ) := by exact_mod_cast hc
    push_cast at this
    norm_num
    exact this
  have hlog : Int.log 2 |(c : ℚ) * (2 : ℚ) ^ k| < 53 + k :=
    (Int.lt_zpow_iff_log_lt (by norm_num) hqpos).1 hlt
  have hn : 0 ≤ k - (max (Int.log 2 |(c : ℚ) * (2 : ℚ) ^ k|) (-1022) - 52) := by
    rcases max_cases (Int.log 2 |(c : ℚ) * (2 : ℚ) ^ k|) (-1022) with ⟨h, _⟩ | ⟨h, _⟩ <;>
      rw [h] <;> omega
  refine round_of_int_mul_quantum _
    (c * 2 ^ (k - (max (Int.log 2 |(c : ℚ) * (2 : ℚ) ^ k|) (-1022) - 52)).toNat) ?_ hb
  unfold quantum
  rw [mul_div_assoc, ← zpow_sub₀ (by norm_num : (2 : ℚ) ≠ 0)]
  push_cast
  congr 1
  rw [← zpow_natCast, Int.toNat_of_nonneg hn]

theorem round_one : round 1 = fin 1 := by
  have := round_dyadic 1 0 (by norm_num) (by norm_num) (by norm_num)
  simpa using this

theorem round_eighths (c : ℤ) (hc : |c| < 2 ^ 53) : round ((c : ℚ) / 8) = fin ((c : ℚ) / 8) := by
  have h8 : (c : ℚ) / 8 = (c : ℚ) * (2 : ℚ) ^ (-3 : ℤ) := by
    rw [div_eq_mul_inv]
    norm_num
  rw [h8]
  apply round_dyadic c (-3) hc (by norm_num)
  rw [abs_mul]
  have : ((|c| : ℤ) : ℚ) < ((2 ^ 53 : ℤ) : ℚ) := by exact_mod_cast hc
  have h2 : |(c : ℚ)| < 2 ^ 53 := by
    push_cast at this
    norm_num
    exact this
  have h3 : |(2 : ℚ) ^ (-3 : ℤ)| ≤ 1 := by
    rw [abs_of_pos (zpow_pos (by norm_num) _)]
    norm_num
  calc |(c : ℚ)| * |(2 : ℚ) ^ (-3 : ℤ)| ≤ |(c : ℚ)| * 1 :=
        mul_le_mul_of_nonneg_left h3 (abs_nonneg _)
    _ < 2 ^ 1024 := by
        rw [mul_one]
        exact lt_trans h2 (by norm_num)

theorem divInt_zero_left (t : Int) : divInt 0 t = if t = 0 then nan else fin 0 := by
  unfold divInt
  by_cases h : t = 0
  · simp [h]
  · simp [h, round_zero]

theorem divInt_self {t : Int} (ht : t ≠ 0) : divInt t t = fin 1 := by
  unfold divInt
  rw [if_neg ht, div_self (by exact_mod_cast ht), round_one]

theorem divInt_eight (c : Int) (hc : |c| < 2 ^ 53) : divInt c 8 = fin ((c : ℚ) / 8) := by
  unfold divInt
  rw [if_neg (by norm_num)]
  simpa using round_eighths c hc

end Double

/-! ## Constant maps and cells -/

theorem constMap_shape (W H : Nat) (v : Int) : (constMap W H v).HasShape W H := by
  unfold constMap Map.HasShape
  refine ⟨by simp, ?_⟩
  intro row hrow
  rw [List.eq_of_mem_replicate hrow]
  simp

theorem Map.read_natCast (m : Map) (i j : Nat) :
    m.read (i : Int) (j : Int) = (m[i]?).bind (fun row => row[j]?) := by
  unfold Map.read
  simp only [Int.natCast_nonneg, and_self, if_true, Int.toNat_ofNat]
  cases m[i]? <;> rfl

theorem constMap_read (W H : Nat) (v : Int) {y x : Int} (hy0 : 0 ≤ y) (hy : y < H)
    (hx0 : 0 ≤ x) (hx : x < W) : (constMap W H v).read y x = some v := by
  obtain ⟨i, rfl⟩ := Int.eq_ofNat_of_zero_le hy0
  obtain ⟨j, rfl⟩ := Int.eq_ofNat_of_zero_le hx0
  have hi : i < H := by omega
  have hj : j < W := by omega
  rw [Map.read_natCast]
  simp [constMap, List.getElem?_replicate, hi, hj]

/-- Every cell of the map satisfies `P`, stated on the reads that succeed. -/
theorem Map.forall_cells_iff (m : Map) (P : Int → Prop) :
    (∀ row ∈ m, ∀ v ∈ row, P v) ↔ ∀ y x v, m.read y x = some v → P v := by
  constructor
  · intro h y x v hv
    unfold Map.read at hv
    split at hv
    · split at hv
      · rename_i row hrow
        exact h row (List.getElem?_mem hrow) v (List.getElem?_mem hv)
      · exact absurd hv (by simp)
    · exact absurd hv (by simp)
  · intro h row hrow v hv
    obtain ⟨i, hi⟩ := List.mem_iff_getElem?.1 hrow
    obtain ⟨j, hj⟩ := List.mem_iff_getElem?.1 hv
    apply h (i : Int) (j : Int) v
    rw [Map.read_natCast, hi]
    exact hj

theorem Map.read_inBounds {m : Map} {W H y x v : Int} (hs : m.HasShape W H)
    (h : m.read y x = some v) : 0 ≤ y ∧ y < H ∧ 0 ≤ x ∧ x < W := by
  unfold Map.read at h
  split at h
  · rename_i hyx
    split at h
    · rename_i row hrow
      have h1 := (List.getElem?_eq_some.1 hrow).1
      have h2 := (List.getElem?_eq_some.1 h).1
      have h3 := hs.2 row (List.getElem?_mem hrow)
      have h4 := hs.1
      omega
    · exact absurd h (by simp)
  · exact absurd h (by simp)

/-- Two maps of the same shape with the same cells are equal. -/
theorem Map.ext_of_read {m1 m2 : Map} {W H : Int} (h1 : m1.HasShape W H)
    (h2 : m2.HasShape W H)
    (h : ∀ x y, 0 ≤ x → x < W → 0 ≤ y → y < H → m1.read y x = m2.read y x) : m1 = m2 := by
  apply List.ext_getElem?
  intro i
  by_cases hi : (i : Int) < H
  · have hi1 : i < m1.length := by have := h1.1; omega
    have hi2 : i < m2.length := by have := h2.1; omega
    rw [List.getElem?_eq_getElem hi1, List.getElem?_eq_getElem hi2]
    congr 1
    have hr1 : (m1[i].length : Int) = W := h1.2 _ (List.getElem_mem _)
    have hr2 : (m2[i].length : Int) = W := h2.2 _ (List.getElem_mem _)
    apply List.ext_getElem?
    intro j
    by_cases hj : (j : Int) < W
    · have := h (j : Int) (i : Int) (by omega) hj (by omega) hi
      rw [Map.read_natCast, Map.read_natCast, List.getElem?_eq_getElem hi1,
        List.getElem?_eq_getElem hi2] at this
      simpa using this
    · rw [List.getElem?_eq_none (by omega), List.getElem?_eq_none (by omega)]
  · have := h1.1
    have := h2.1
    rw [List.getElem?_eq_none (by omega), List.getElem?_eq_none (by omega)]

theorem Double.lt_irrefl (a : Double) : Double.lt a a = false := by
  cases a <;> simp [Double.lt]

theorem ratioOf_sq (c R : Int) : ratioOf c R = Double.divInt c ((2 * R + 1) ^ 2 - 1) := by
  unfold ratioOf
  congr 1
  ring

/-! ## cellularAutomata: cells, shape, all-zero grid -/

theorem countAt_zero (W H : Nat) (R x y : Int) : countAt (constMap W H 0) W H R x y = 0 := by
  unfold countAt
  apply List.sum_eq_zero
  intro a ha
  obtain ⟨dy, _, rfl⟩ := List.mem_map.1 ha
  apply List.sum_eq_zero
  intro b hb
  obtain ⟨dx, _, rfl⟩ := List.mem_map.1 hb
  unfold neighbourTerm
  split
  · rfl
  · split
    · rename_i hb
      unfold Map.cell
      rw [constMap_read W H 0 hb.2.2.1 hb.2.2.2 hb.1 hb.2.1]
      rfl
    · rfl

theorem Double.gt_divInt_zero (t : Int) (U : Double) (hU : Double.le (Double.fin 0) U = true) :
    Double.gt (Double.divInt 0 t) U = false := by
  rw [Double.divInt_zero_left]
  unfold Double.gt
  split
  · cases U <;> simp [Double.lt]
  · cases U <;> simp_all [Double.lt, Double.le]

theorem neighbourTerm_ones (W H : Nat) (x y dx dy : Int) :
    neighbourTerm (constMap W H 1) W H x y dx dy =
      if dx = 0 ∧ dy = 0 then 0 else inRange (x + dx) W * inRange (y + dy) H := by
  unfold neighbourTerm inRange
  split
  · rfl
  · split
    · rename_i hb
      unfold Map.cell
      rw [constMap_read W H 1 hb.2.2.1 hb.2.2.2 hb.1 hb.2.1]
      rw [if_pos ⟨hb.1, hb.2.1⟩, if_pos ⟨hb.2.2.1, hb.2.2.2⟩]
      rfl
    · rename_i hb
      by_cases h1 : 0 ≤ x + dx ∧ x + dx < W
      · rw [if_pos h1, if_neg (fun h2 => hb ⟨h1.1, h1.2, h2.1, h2.2⟩)]
        simp
      · rw [if_neg h1]
        simp

theorem intRange_one : intRange (-1) 1 = [-1, 0, 1] := by decide

theorem countAt_ones_one (W H : Nat) (x y : Int) :
    countAt (constMap W H 1) W H 1 x y =
      axisCount x W * axisCount y H - inRange x W * inRange y H := by
  unfold countAt axisCount
  rw [intRange_one]
  simp only [neighbourTerm_ones, List.map_cons, List.map_nil, List.sum_cons, List.sum_nil]
  norm_num
  simp only [← sub_eq_add_neg]
  ring

theorem axisCount_border {x n : Int} (hn : 2 ≤ n) (hx : x = 0 ∨ x = n - 1) :
    axisCount x n = 2 := by
  unfold axisCount inRange
  split_ifs <;> omega

theorem axisCount_inner {x n : Int} (hx0 : 0 < x) (hx : x < n - 1) : axisCount x n = 3 := by
  unfold axisCount inRange
  split_ifs <;> omega

theorem inRange_of {x n : Int} (hx0 : 0 ≤ x) (hx : x < n) : inRange x n = 1 := by
  unfold inRange
  rw [if_pos ⟨hx0, hx⟩]

theorem sum_Icc_indicator_zero (R : Int) (hR : 0 ≤ R) (c : Prop) [Decidable c] :
    ∑ dx ∈ Finset.Icc (-R) R, (if dx = 0 ∧ c then (0 : Int) else 1) =
      (2 * R + 1) - (if c then 1 else 0) := by
  by_cases hc : c
  · simp only [hc, and_true, if_true]
    have h1 : ∀ dx ∈ Finset.Icc (-R) R,
        (if dx = 0 then (0 : Int) else 1) = 1 - (if dx = 0 then 1 else 0) := by
      intro dx _
      split <;> simp
    rw [Finset.sum_congr rfl h1, Finset.sum_sub_distrib,
      Finset.sum_ite_eq' (Finset.Icc (-R) R) 0 (fun _ => (1 : Int)),
      if_pos (by simp only [Finset.mem_Icc]; omega)]
    simp only [Finset.sum_const, Int.card_Icc, smul_eq_mul, mul_one, nsmul_eq_mul]
    have : ((R + 1 - -R).toNat : Int) = 2 * R + 1 := by omega
    rw [this]
  · simp only [hc, and_false, if_false]
    simp only [Finset.sum_const, Int.card_Icc, smul_eq_mul, mul_one, nsmul_eq_mul]
    have : ((R + 1 - -R).toNat : Int) = 2 * R + 1 := by omega
    rw [this]
    ring

theorem countAt_ones_full (W H : Nat) (R x y : Int) (hR : 0 ≤ R) (hx0 : R ≤ x)
    (hx : x < W - R) (hy0 : R ≤ y) (hy : y < H - R) :
    countAt (constMap W H 1) W H R x y = (2 * R + 1) * (2 * R + 1) - 1 := by
  unfold countAt
  rw [sum_intRange]
  simp only [sum_intRange]
  have h1 : ∀ dy ∈ Finset.Icc (-R) R,
      ∑ dx ∈ Finset.Icc (-R) R, neighbourTerm (constMap W H 1) W H x y dx dy =
        (2 * R + 1) - (if dy = 0 then 1 else 0) := by
    intro dy hdy
    rw [← sum_Icc_indicator_zero R hR (dy = 0)]
    apply Finset.sum_congr rfl
    intro dx hdx
    rw [Finset.mem_Icc] at hdx hdy
    rw [neighbourTerm_ones, inRange_of (by omega) (by omega), inRange_of (by omega) (by omega)]
    rfl
  rw [Finset.sum_congr rfl h1, Finset.sum_sub_distrib,
    Finset.sum_ite_eq' (Finset.Icc (-R) R) 0 (fun _ => (1 : Int)),
    if_pos (by simp only [Finset.mem_Icc]; omega)]
  simp only [Finset.sum_const, Int.card_Icc, smul_eq_mul, nsmul_eq_mul]
  have : ((R + 1 - -R).toNat : Int) = 2 * R + 1 := by omega
  rw [this]

/-! ## cellularAutomata: all-ones grid -/

theorem newCell_eighths (G : Map) (W H : Int) (U : Double) (y x c : Int)
    (hc : countAt G W H 1 x y = c) (hb : |c| < 2 ^ 53) :
    newCell G W H 1 U y x = 1 ↔ Double.lt U (Double.fin ((c : ℚ) / 8)) = true := by
  unfold newCell ratioOf
  rw [hc]
  have h8 : (2 * 1 + 1) * (2 * 1 + 1) - 1 = (8 : Int) := by norm_num
  rw [h8, Double.divInt_eight c hb]
  unfold Double.gt
  split <;> simp_all

/-- C7: on the all-ones `W` by `H` grid with `W, H >= 3` and `R = 1`,
`cellularAutomata` gives a corner cell `1` iff `U < 3/8`, a border cell that is
not a corner `1` iff `U < 5/8`, and an interior cell `1` iff `U < 1`; so a
threshold that keeps a corner keeps the border, and one that keeps the border
keeps the interior. -/
theorem cellularAutomata_borderBias (W H : Nat) (U : Double) (hW : 3 ≤ W) (hH : 3 ≤ H) :
    ∃ G1, cellularAutomata (constMap W H 1) W H 1 U = some G1 ∧
      (∀ x y : Int, 0 ≤ x → x < W → 0 ≤ y → y < H →
        ((x = 0 ∨ x = W - 1) ∧ (y = 0 ∨ y = H - 1) →
          (G1.read y x = some 1 ↔ Double.lt U (Double.fin (3 / 8)) = true)) ∧
        ((x = 0 ∨ x = W - 1 ∨ y = 0 ∨ y = H - 1) ∧
            ¬ ((x = 0 ∨ x = W - 1) ∧ (y = 0 ∨ y = H - 1)) →
          (G1.read y x = some 1 ↔ Double.lt U (Double.fin (5 / 8)) = true)) ∧
        (0 < x ∧ x < W - 1 ∧ 0 < y ∧ y < H - 1 →
          (G1.read y x = some 1 ↔ Double.lt U (Double.fin 1) = true))) ∧
      (Double.lt U (Double.fin (3 / 8)) = true → Double.lt U (Double.fin (5 / 8)) = true) ∧
      (Double.lt U (Double.fin (5 / 8)) = true → Double.lt U (Double.fin 1) = true) := by
  obtain ⟨G1, h1, _, h2⟩ := cellularAutomata_spec 1 U (constMap_shape W H 1)
  have hW2 : (2 : Int) ≤ W := by omega
  have hH2 : (2 : Int) ≤ H := by omega
  refine ⟨G1, h1, ?_, ?_, ?_⟩
  · intro x y hx0 hx hy0 hy
    rw [h2 x y hx0 hx hy0 hy, Option.some.injEq]
    have hin : inRange x W * inRange y H = 1 := by
      rw [inRange_of hx0 hx, inRange_of hy0 hy]
      rfl
    refine ⟨?_, ?_, ?_⟩
    · rintro ⟨hcx, hcy⟩
      have hc : countAt (constMap W H 1) W H 1 x y = 3 := by
        rw [countAt_ones_one, axisCount_border hW2 hcx, axisCount_border hH2 hcy, hin]
        rfl
      rw [newCell_eighths _ _ _ U y x 3 hc (by norm_num)]
      norm_num
    · rintro ⟨hb, hnc⟩
      have hc : countAt (constMap W H 1) W H 1 x y = 5 := by
        rw [countAt_ones_one, hin]
        by_cases hcx : x = 0 ∨ x = W - 1
        · have hy1 : 0 < y ∧ y < H - 1 := by omega
          rw [axisCount_border hW2 hcx, axisCount_inner hy1.1 hy1.2]
          rfl
        · have hx1 : 0 < x ∧ x < W - 1 := by omega
          have hcy : y = 0 ∨ y = H - 1 := by omega
          rw [axisCount_inner hx1.1 hx1.2, axisCount_border hH2 hcy]
          rfl
      rw [newCell_eighths _ _ _ U y x 5 hc (by norm_num)]
      norm_num
    · rintro ⟨h3, h4, h5, h6⟩
      have hc : countAt (constMap W H 1) W H 1 x y = 8 := by
        rw [countAt_ones_one, hin, axisCount_inner h3 h4, axisCount_inner h5 h6]
        rfl
      rw [newCell_eighths _ _ _ U y x 8 hc (by norm_num)]
      norm_num
  · cases U <;> simp [Double.lt]
    intro h
    exact lt_trans h (by norm_num)
  · cases U <;> simp [Double.lt]
    intro h
    exact lt_trans h (by norm_num)

theorem cellularAutomata_borderBias_witness :
    (3 ≤ 4 ∧ 3 ≤ 3) ∧
    ∃ G1, cellularAutomata (constMap 4 3 1) (4 : Nat) (3 : Nat) 1 (Double.fin (1 / 2)) = some G1 ∧
      (∀ x y : Int, 0 ≤ x → x < (4 : Nat) → 0 ≤ y → y < (3 : Nat) →
        ((x = 0 ∨ x = (4 : Nat) - 1) ∧ (y = 0 ∨ y = (3 : Nat) - 1) →
          (G1.read y x = some 1 ↔
            Double.lt (Double.fin (1 / 2)) (Double.fin (3 / 8)) = true)) ∧
        ((x = 0 ∨ x = (4 : Nat) - 1 ∨ y = 0 ∨ y = (3 : Nat) - 1) ∧
            ¬ ((x = 0 ∨ x = (4 : Nat) - 1) ∧ (y = 0 ∨ y = (3 : Nat) - 1)) →
          (G1.read y x = some 1 ↔
            Double.lt (Double.fin (1 / 2)) (Double.fin (5 / 8)) = true)) ∧
        (0 < x ∧ x < (4 : Nat) - 1 ∧ 0 < y ∧ y < (3 : Nat) - 1 →
          (G1.read y x = some 1 ↔
            Double.lt (Double.fin (1 / 2)) (Double.fin 1) = true))) ∧
      (Double.lt (Double.fin (1 / 2)) (Double.fin (3 / 8)) = true →
        Double.lt (Double.fin (1 / 2)) (Double.fin (5 / 8)) = true) ∧
      (Double.lt (Double.fin (1 / 2)) (Double.fin (5 / 8)) = true →
        Double.lt (Double.fin (1 / 2)) (Double.fin 1) = true) :=
  ⟨by decide, cellularAutomata_borderBias 4 3 (Double.fin (1 / 2)) (by decide) (by decide)⟩

/-- C8: on the all-ones `W` by `H` grid with `R >= 1` and `U = 0` (for every
`W` and `H`, so for `W, H > 2R + 1`), every interior cell (`R <= x < W - R`,
`R <= y < H - R`) has the neighbour ratio exactly `1` and gets the value `1`. -/
theorem cellularAutomata_allOnes_interior (W H : Nat) (R : Int) (hR : 1 ≤ R) :
    ∃ G1, cellularAutomata (constMap W H 1) W H R (Double.fin 0) = some G1 ∧
      ∀ x y : Int, R ≤ x → x < W - R → R ≤ y → y < H - R →
        (∃ count, neighbourCount (constMap W H 1) W H R x y = some count ∧
          ratioOf count R = Double.fin 1) ∧
        G1.read y x = some 1 := by
  obtain ⟨G1, h1, _, h2⟩ := cellularAutomata_spec R (Double.fin 0) (constMap_shape W H 1)
  refine ⟨G1, h1, ?_⟩
  intro x y hx0 hx hy0 hy
  have hc := countAt_ones_full W H R x y (by omega) hx0 hx hy0 hy
  have ht : (2 * R + 1) * (2 * R + 1) - 1 ≠ 0 := by nlinarith
  have hr : ratioOf (countAt (constMap W H 1) W H R x y) R = Double.fin 1 := by
    unfold ratioOf
    rw [hc, Double.divInt_self ht]
  refine ⟨⟨_, neighbourCount_eq (constMap_shape W H 1) R x y, hr⟩, ?_⟩
  rw [h2 x y (by omega) (by omega) (by omega) (by omega)]
  unfold newCell
  rw [hr]
  simp [Double.gt, Double.lt]

theorem cellularAutomata_allOnes_interior_witness :
    1 ≤ (1 : Int) ∧
    ∃ G1, cellularAutomata (constMap 5 4 1) (5 : Nat) (4 : Nat) 1 (Double.fin 0) = some G1 ∧
      ∀ x y : Int, 1 ≤ x → x < (5 : Nat) - 1 → 1 ≤ y → y < (4 : Nat) - 1 →
        (∃ count, neighbourCount (constMap 5 4 1) (5 : Nat) (4 : Nat) 1 x y = some count ∧
          ratioOf count 1 = Double.fin 1) ∧
        G1.read y x = some 1 :=
  ⟨by decide, cellularAutomata_allOnes_interior 5 4 1 (by decide)⟩

/-! ## The cells of digRoom -/

theorem digLoops_spec {map : Map} {mapW mapH : Int} (x y rw rh : Int)
    (hs : map.HasShape mapW mapH) :
    ∃ map1, digLoops map x y rw rh mapW mapH = some map1 ∧ map1.HasShape mapW mapH ∧
      map.PaintedOn map1 (inRoom x y rw rh mapW mapH) (fun _ _ => 1) := by
  obtain ⟨m1, h1, hs1, hp1⟩ := paint_fold
    (fun i i1 j1 => i1 = i ∧ (x - Int.tdiv rw 2 ≤ j1 ∧ j1 ≤ x + Int.tdiv rw 2) ∧
      i1 ≥ 0 ∧ i1 < mapH ∧ j1 ≥ 0 ∧ j1 < mapW) (fun _ _ => 1)
    (fun map i => (intRange (x - Int.tdiv rw 2) (x + Int.tdiv rw 2)).foldlM (fun map j =>
      if i ≥ 0 ∧ i < mapH ∧ j ≥ 0 ∧ j < mapW then map.write i j 1 else some map) map)
    mapW mapH (intRange (y - Int.tdiv rh 2) (y + Int.tdiv rh 2))
    (by
      intro m i hm _
      obtain ⟨m1, h1, hs1, hp1⟩ := paint_fold
        (fun j i1 j1 => i1 = i ∧ j1 = j ∧ i ≥ 0 ∧ i < mapH ∧ j ≥ 0 ∧ j < mapW) (fun _ _ => 1)
        (fun map j => if i ≥ 0 ∧ i < mapH ∧ j ≥ 0 ∧ j < mapW then map.write i j 1 else some map)
        mapW mapH (intRange (x - Int.tdiv rw 2) (x + Int.tdiv rw 2))
        (by
          intro m0 j hm0 _
          by_cases hb : i ≥ 0 ∧ i < mapH ∧ j ≥ 0 ∧ j < mapW
          · obtain ⟨m1, h1⟩ := Map.write_isSome 1 hm0 hb.1 hb.2.1 hb.2.2.1 hb.2.2.2
            refine ⟨m1, by simp only [hb, and_self, if_true, h1], Map.shape_write h1 hm0, ?_, ?_⟩
            · rintro i1 j1 ⟨rfl, rfl, _⟩
              rw [Map.read_write h1]
              simp
            · intro i1 j1 hne
              rw [Map.read_write h1]
              have : ¬ (i1 = i ∧ j1 = j) := fun h => hne ⟨h.1, h.2, hb⟩
              simp [this]
          · refine ⟨m0, by simp only [hb, if_false], hm0, ?_, ?_⟩
            · rintro i1 j1 ⟨_, _, h⟩
              exact absurd h hb
            · intro _ _ _
              rfl)
        m hm
      refine ⟨m1, h1, hs1, ?_, ?_⟩
      · rintro i1 j1 ⟨rfl, hj, hb⟩
        exact hp1.1 i1 j1 ⟨j1, (mem_intRange _ _ _).2 hj, rfl, rfl, hb⟩
      · intro i1 j1 hne
        apply hp1.2
        rintro ⟨j, hj, rfl, rfl, hb⟩
        exact hne ⟨rfl, (mem_intRange _ _ _).1 hj, hb⟩)
    map hs
  refine ⟨m1, h1, hs1, ?_, ?_⟩
  · rintro i j ⟨hi, hj, hb⟩
    exact hp1.1 i j ⟨i, (mem_intRange _ _ _).2 hi, rfl, hj, hb⟩
  · intro i j hne
    apply hp1.2
    rintro ⟨i0, hi0, rfl, hj, hb⟩
    exact hne ⟨(mem_intRange _ _ _).1 hi0, hj, hb⟩

theorem roomSize_eq (r : Nat) {maxSize : Int} (h : maxSize ≠ 1) :
    roomSize r maxSize = some (Int.tmod (r : Int) (maxSize - 1) + 2) := by
  unfold roomSize
  rw [if_neg (by omega)]

theorem roomSize_eq_emod (r : Nat) {maxSize : Int} (h : 2 ≤ maxSize) :
    roomSize r maxSize = some ((r : Int) % (maxSize - 1) + 2) := by
  rw [roomSize_eq r (by omega), Int.tmod_eq_emod (Int.natCast_nonneg r) (by omega)]

theorem digRoom_spec {map : Map} {mapW mapH : Int} (x y : Int) {maxW maxH : Int}
    (rands : Nat → Nat) (hs : map.HasShape mapW mapH) (hW : maxW ≠ 1) (hH : maxH ≠ 1) :
    ∃ map1, digRoom map x y maxW maxH mapW mapH rands = some (map1, fun n => rands (n + 2)) ∧
      map1.HasShape mapW mapH ∧
      map.PaintedOn map1 (inRoom x y (Int.tmod (rands 0 : Int) (maxW - 1) + 2)
        (Int.tmod (rands 1 : Int) (maxH - 1) + 2) mapW mapH) (fun _ _ => 1) := by
  obtain ⟨map1, h1, hs1, hp1⟩ := digLoops_spec x y (Int.tmod (rands 0 : Int) (maxW - 1) + 2)
    (Int.tmod (rands 1 : Int) (maxH - 1) + 2) hs
  refine ⟨map1, ?_, hs1, hp1⟩
  unfold digRoom
  rw [roomSize_eq _ hW, roomSize_eq _ hH]
  simp [h1]

/-! ## digRoom: frame -/

theorem Map.grows_refl (m : Map) : m.Grows m := fun _ _ => Or.inr rfl

theorem Map.grows_trans {m m1 m2 : Map} (h1 : m.Grows m1) (h2 : m1.Grows m2) : m.Grows m2 := by
  intro y x
  rcases h2 y x with h | h
  · exact Or.inl h
  · rw [h]
    exact h1 y x

theorem Map.paintedOn_grows {m m1 : Map} {S : Int → Int → Prop}
    (h : m.PaintedOn m1 S (fun _ _ => 1)) : m.Grows m1 := by
  intro y x
  by_cases hS : S y x
  · exact Or.inl (h.1 y x hS)
  · exact Or.inr (h.2 y x hS)

theorem roomRoll_spec {W H : Int} (roomSizeX roomSizeY : Int) (probIncreaseRoom : Double)
    (s : AgentState) {m : Map} (hm : m.HasShape W H) :
    (roomSizeX ≠ 1 → roomSizeY ≠ 1 →
      ∃ r, roomRoll W H roomSizeX roomSizeY probIncreaseRoom s m = some r) ∧
    ∀ r, roomRoll W H roomSizeX roomSizeY probIncreaseRoom s m = some r →
      r.1.HasShape W H ∧ m.Grows r.1 := by
  unfold roomRoll
  split
  · constructor
    · intro hX hY
      obtain ⟨map1, h1, _, _⟩ := digRoom_spec s.agentX s.agentY s.rng.rands hm hX hY
      exact ⟨_, by rw [h1]; rfl⟩
    · intro r hr
      unfold digRoom at hr
      simp only [Option.map_eq_some', Option.bind_eq_some] at hr
      obtain ⟨⟨m1, rest⟩, ⟨rw, _, rh, _, m2, h2, h3⟩, rfl⟩ := hr
      obtain ⟨m3, h4, hs3, hp3⟩ := digLoops_spec s.agentX s.agentY rw rh hm
      rw [h4, Option.some.injEq] at h2
      subst h2
      simp only [Prod.mk.injEq] at h3
      obtain ⟨rfl, _⟩ := h3
      exact ⟨hs3, Map.paintedOn_grows hp3⟩
  · constructor
    · intro _ _
      exact ⟨_, rfl⟩
    · intro r hr
      simp only [Option.some.injEq] at hr
      subst hr
      exact ⟨hm, Map.grows_refl m⟩

theorem agentStep_spec {W H : Int} (roomSizeX roomSizeY : Int)
    (probIncreaseRoom probIncreaseChange : Double) (s : AgentState) (hs : s.Inside W H) :
    (roomSizeX ≠ 1 → roomSizeY ≠ 1 →
      ∃ s1, agentStep W H roomSizeX roomSizeY probIncreaseRoom probIncreaseChange s = some s1) ∧
    ∀ s1, agentStep W H roomSizeX roomSizeY probIncreaseRoom probIncreaseChange s = some s1 →
      s1.Inside W H ∧ s.newMap.Grows s1.newMap ∧
      s1.newMap.read s.agentY s.agentX = some 1 ∧
      (s1.dx, s1.dy) = nextDir s ∧
      s1.agentX = max 0 (min (W - 1) (s.agentX + s1.dx)) ∧
      s1.agentY = max 0 (min (H - 1) (s.agentY + s1.dy)) := by
  obtain ⟨hshape, hx0, hx, hy0, hy⟩ := hs
  obtain ⟨m1, hw⟩ := Map.write_isSome 1 hshape hy0 hy hx0 hx
  have hs1 := Map.shape_write hw hshape
  have hroll := roomRoll_spec roomSizeX roomSizeY probIncreaseRoom s hs1
  unfold agentStep
  rw [hw]
  constructor
  · intro hX hY
    obtain ⟨r, hr⟩ := hroll.1 hX hY
    exact ⟨_, by rw [Option.some_bind, hr]; rfl⟩
  · intro s1 h1
    simp only [Option.some_bind, Option.map_eq_some'] at h1
    obtain ⟨r, hr, rfl⟩ := h1
    obtain ⟨hrs, hrg⟩ := hroll.2 r hr
    have hm1 : m1.read s.agentY s.agentX = some 1 := by
      rw [Map.read_write hw]
      simp
    have hg1 : s.newMap.Grows m1 := by
      intro y x
      rw [Map.read_write hw]
      split
      · exact Or.inl rfl
      · exact Or.inr rfl
    refine ⟨⟨hrs, ?_, ?_, ?_, ?_⟩, Map.grows_trans hg1 hrg, ?_, rfl, rfl, rfl⟩
    · exact le_max_left _ _
    · show max 0 (min (W - 1) _) < W
      rcases max_cases 0 (min (W - 1) (s.agentX + (nextDir s).1)) with ⟨h, _⟩ | ⟨h, _⟩
      · rw [h]; omega
      · rw [h]
        have := min_le_left (W - 1) (s.agentX + (nextDir s).1)
        omega
    · exact le_max_left _ _
    · show max 0 (min (H - 1) _) < H
      rcases max_cases 0 (min (H - 1) (s.agentY + (nextDir s).2)) with ⟨h, _⟩ | ⟨h, _⟩
      · rw [h]; omega
      · rw [h]
        have := min_le_left (H - 1) (s.agentY + (nextDir s).2)
        omega
    · rcases hrg s.agentY s.agentX with h | h
      · exact h
      · show r.1.read s.agentY s.agentX = some 1
        rw [h, hm1]

theorem walk_spec {W H : Int} (roomSizeX roomSizeY : Int)
    (probIncreaseRoom probIncreaseChange : Double) (n : Nat) (s : AgentState)
    (hs : s.Inside W H) :
    (roomSizeX ≠ 1 → roomSizeY ≠ 1 →
      ∃ s1, walk W H roomSizeX roomSizeY probIncreaseRoom probIncreaseChange n s = some s1) ∧
    ∀ s1, walk W H roomSizeX roomSizeY probIncreaseRoom probIncreaseChange n s = some s1 →
      s1.Inside W H ∧ s.newMap.Grows s1.newMap := by
  induction n generalizing s with
  | zero =>
    refine ⟨fun _ _ => ⟨s, rfl⟩, ?_⟩
    intro s1 h1
    simp only [walk, Option.some.injEq] at h1
    subst h1
    exact ⟨hs, Map.grows_refl _⟩
  | succ n ih =>
    have hin : ¬ (s.agentX < 0 ∨ s.agentX ≥ W ∨ s.agentY < 0 ∨ s.agentY ≥ H) := by
      obtain ⟨_, h1, h2, h3, h4⟩ := hs
      omega
    have hstep := agentStep_spec roomSizeX roomSizeY probIncreaseRoom probIncreaseChange s hs
    simp only [walk, if_neg hin]
    constructor
    · intro hX hY
      obtain ⟨s1, h1⟩ := hstep.1 hX hY
      obtain ⟨s2, h2⟩ := (ih s1 (hstep.2 s1 h1).1).1 hX hY
      exact ⟨s2, by rw [h1, Option.some_bind, h2]⟩
    · intro s2 h2
      simp only [Option.bind_eq_some] at h2
      obtain ⟨s1, h1, h3⟩ := h2
      obtain ⟨hi1, hg1, _⟩ := hstep.2 s1 h1
      obtain ⟨hi2, hg2⟩ := (ih s1 hi1).2 s2 h3
      exact ⟨hi2, Map.grows_trans hg1 hg2⟩

theorem walks_spec {W H : Int} (I roomSizeX roomSizeY : Int)
    (probIncreaseRoom probIncreaseChange : Double) (n : Nat) (s : AgentState)
    (hs : s.Inside W H) :
    (roomSizeX ≠ 1 → roomSizeY ≠ 1 →
      ∃ s1, walks W H I roomSizeX roomSizeY probIncreaseRoom probIncreaseChange n s = some s1) ∧
    ∀ s1, walks W H I roomSizeX roomSizeY probIncreaseRoom probIncreaseChange n s = some s1 →
      s1.Inside W H ∧ s.newMap.Grows s1.newMap := by
  induction n generalizing s with
  | zero =>
    refine ⟨fun _ _ => ⟨s, rfl⟩, ?_⟩
    intro s1 h1
    simp only [walks, Option.some.injEq] at h1
    subst h1
    exact ⟨hs, Map.grows_refl _⟩
  | succ n ih =>
    have hw := walk_spec roomSizeX roomSizeY probIncreaseRoom probIncreaseChange I.toNat s hs
    simp only [walks]
    constructor
    · intro hX hY
      obtain ⟨s1, h1⟩ := hw.1 hX hY
      obtain ⟨s2, h2⟩ := (ih s1 (hw.2 s1 h1).1).1 hX hY
      exact ⟨s2, by rw [h1, Option.some_bind, h2]⟩
    · intro s2 h2
      simp only [Option.bind_eq_some] at h2
      obtain ⟨s1, h1, h3⟩ := h2
      obtain ⟨hi1, hg1⟩ := hw.2 s1 h1
      obtain ⟨hi2, hg2⟩ := (ih s1 hi1).2 s2 h3
      exact ⟨hi2, Map.grows_trans hg1 hg2⟩

theorem drunkAgent_spec {currentMap : Map} {W H : Int} (J I roomSizeX roomSizeY : Int)
    (probGenerateRoom probIncreaseRoom probChangeDirection probIncreaseChange : Double)
    {agentX agentY : Int} (rng : Rng) (hs : currentMap.HasShape W H)
    (hx0 : 0 ≤ agentX) (hx : agentX < W) (hy0 : 0 ≤ agentY) (hy : agentY < H) :
    (roomSizeX ≠ 1 → roomSizeY ≠ 1 →
      ∃ r, drunkAgent currentMap W H J I roomSizeX roomSizeY probGenerateRoom probIncreaseRoom
        probChangeDirection probIncreaseChange agentX agentY rng = some r) ∧
    ∀ r, drunkAgent currentMap W H J I roomSizeX roomSizeY probGenerateRoom probIncreaseRoom
        probChangeDirection probIncreaseChange agentX agentY rng = some r →
      r.1.HasShape W H ∧ currentMap.Grows r.1 ∧
      0 ≤ r.2.1 ∧ r.2.1 < W ∧ 0 ≤ r.2.2 ∧ r.2.2 < H := by
  have h0 : (initState currentMap probGenerateRoom probChangeDirection agentX agentY
      rng).Inside W H := ⟨hs, hx0, hx, hy0, hy⟩
  have hw := walks_spec I roomSizeX roomSizeY probIncreaseRoom probIncreaseChange J.toNat _ h0
  unfold drunkAgent
  constructor
  · intro hX hY
    obtain ⟨s1, h1⟩ := hw.1 hX hY
    exact ⟨_, by rw [h1]; rfl⟩
  · intro r hr
    simp only [Option.map_eq_some'] at hr
    obtain ⟨s1, h1, rfl⟩ := hr
    obtain ⟨⟨h2, h3, h4, h5, h6⟩, hg⟩ := hw.2 s1 h1
    exact ⟨h2, hg, h3, h4, h5, h6⟩

/-! ## The walker that never rolls -/

theorem Map.paintedOn_trans {m m1 m2 : Map} {S T V : Int → Int → Prop} {val : Int → Int → Int}
    (h1 : m.PaintedOn m1 S val) (h2 : m1.PaintedOn m2 T val)
    (hV : ∀ y x, V y x ↔ S y x ∨ T y x) : m.PaintedOn m2 V val := by
  constructor
  · intro y x hv
    by_cases hT : T y x
    · exact h2.1 y x hT
    · rw [h2.2 y x hT]
      rcases (hV y x).1 hv with h | h
      · exact h1.1 y x h
      · exact absurd h hT
  · intro y x hv
    have hS : ¬ S y x := fun h => hv ((hV y x).2 (Or.inl h))
    have hT : ¬ T y x := fun h => hv ((hV y x).2 (Or.inr h))
    rw [h2.2 y x hT, h1.2 y x hS]

theorem Map.paintedOn_refl (m : Map) {S : Int → Int → Prop} (val : Int → Int → Int)
    (hS : ∀ y x, ¬ S y x) : m.PaintedOn m S val :=
  ⟨fun y x h => absurd h (hS y x), fun _ _ _ => rfl⟩

theorem Double.lt_zero_of_nonneg {u : ℚ} (h : 0 ≤ u) :
    Double.lt (Double.fin u) (Double.fin 0) = false := by
  simp [Double.lt, h]

theorem Double.add_zero_zero : Double.add (Double.fin 0) (Double.fin 0) = Double.fin 0 := by
  simp [Double.add, Double.round_zero]

theorem agentStep_straight {W H : Int} (roomSizeX roomSizeY : Int) (s : AgentState)
    (hs : s.Inside W H) (hst : s.Straight) :
    ∃ s1, agentStep W H roomSizeX roomSizeY (Double.fin 0) (Double.fin 0) s = some s1 ∧
      s1.Inside W H ∧ s1.Straight ∧
      s1.agentX = min (s.agentX + 1) (W - 1) ∧ s1.agentY = s.agentY ∧
      s.newMap.PaintedOn s1.newMap (fun y x => y = s.agentY ∧ x = s.agentX) (fun _ _ => 1) := by
  obtain ⟨hshape, hx0, hx, hy0, hy⟩ := hs
  obtain ⟨hp1, hp2, hdx, hdy, hr⟩ := hst
  obtain ⟨m1, hw⟩ := Map.write_isSome 1 hshape hy0 hy hx0 hx
  have hroll : roomRoll W H roomSizeX roomSizeY (Double.fin 0) s m1 =
      some (m1, s.rng.rands, Double.fin 0) := by
    unfold roomRoll
    rw [hp1, Double.lt_zero_of_nonneg (hr 0), Double.add_zero_zero]
    rfl
  have hturn : turns s = false := by
    unfold turns
    rw [hp2, Double.lt_zero_of_nonneg (hr 1)]
  have hdir : nextDir s = (1, 0) := by
    unfold nextDir
    rw [hturn, hdx, hdy]
    rfl
  refine ⟨_, by unfold agentStep; rw [hw, Option.some_bind, hroll]; rfl, ?_, ?_, ?_, ?_, ?_⟩
  · refine ⟨Map.shape_write hw hshape, ?_, ?_, ?_, ?_⟩
    · exact le_max_left _ _
    · show max 0 (min (W - 1) (s.agentX + (nextDir s).1)) < W
      rw [hdir]
      simp only [max_lt_iff, min_lt_iff]
      omega
    · exact le_max_left _ _
    · show max 0 (min (H - 1) (s.agentY + (nextDir s).2)) < H
      rw [hdir]
      simp only [max_lt_iff, min_lt_iff]
      omega
  · refine ⟨rfl, ?_, ?_, ?_, ?_⟩
    · show (if turns s then _ else _) = _
      rw [hturn, hp2]
      exact Double.add_zero_zero
    · show (nextDir s).1 = 1
      rw [hdir]
    · show (nextDir s).2 = 0
      rw [hdir]
    · intro n
      exact hr (n + 2)
  · show max 0 (min (W - 1) (s.agentX + (nextDir s).1)) = _
    rw [hdir, min_comm]
    apply max_eq_right
    simp only [le_min_iff]
    omega
  · show max 0 (min (H - 1) (s.agentY + (nextDir s).2)) = _
    rw [hdir]
    simp only [add_zero]
    rw [min_eq_right (by omega), max_eq_right hy0]
  · constructor
    · rintro y x ⟨rfl, rfl⟩
      show m1.read _ _ = _
      rw [Map.read_write hw]
      simp
    · intro y x hne
      show m1.read _ _ = _
      rw [Map.read_write hw]
      simp [hne]

theorem walk_straight {W H : Int} (roomSizeX roomSizeY : Int) (n : Nat) (s : AgentState)
    (hs : s.Inside W H) (hst : s.Straight) :
    ∃ s1, walk W H roomSizeX roomSizeY (Double.fin 0) (Double.fin 0) n s = some s1 ∧
      s1.Inside W H ∧ s1.Straight ∧
      s1.agentX = min (s.agentX + n) (W - 1) ∧ s1.agentY = s.agentY ∧
      s.newMap.PaintedOn s1.newMap
        (fun y x => y = s.agentY ∧ s.agentX ≤ x ∧ x ≤ min (s.agentX + n - 1) (W - 1))
        (fun _ _ => 1) := by
  induction n generalizing s with
  | zero =>
    refine ⟨s, rfl, hs, hst, ?_, rfl, Map.paintedOn_refl _ _ ?_⟩
    · have := hs.2.2.1
      simp only [Nat.cast_zero, add_zero]
      rw [min_eq_left (by omega)]
    · rintro y x ⟨_, h1, h2⟩
      simp only [Nat.cast_zero, add_zero, le_min_iff] at h2
      omega
  | succ n ih =>
    have hin : ¬ (s.agentX < 0 ∨ s.agentX ≥ W ∨ s.agentY < 0 ∨ s.agentY ≥ H) := by
      obtain ⟨_, h1, h2, h3, h4⟩ := hs
      omega
    obtain ⟨s1, h1, hi1, hst1, hx1, hy1, hp1⟩ := agentStep_straight roomSizeX roomSizeY s hs hst
    obtain ⟨s2, h2, hi2, hst2, hx2, hy2, hp2⟩ := ih s1 hi1 hst1
    refine ⟨s2, by simp only [walk, if_neg hin, h1, Option.some_bind, h2], hi2, hst2, ?_, ?_, ?_⟩
    · rw [hx2, hx1]
      push_cast
      have := hs.2.2.1
      simp only [min_def]
      split_ifs <;> omega
    · rw [hy2, hy1]
    · refine Map.paintedOn_trans hp1 hp2 ?_
      intro y x
      rw [hx1, hy1]
      push_cast
      have := hs.2.2.1
      simp only [min_def]
      split_ifs <;> constructor <;> intro h <;> omega

theorem walks_straight {W H : Int} (roomSizeX roomSizeY : Int) (I : Int) (n : Nat)
    (s : AgentState) (hs : s.Inside W H) (hst : s.Straight) :
    ∃ s1, walks W H I roomSizeX roomSizeY (Double.fin 0) (Double.fin 0) n s = some s1 ∧
      s1.Inside W H ∧ s1.Straight ∧
      s1.agentX = min (s.agentX + n * I.toNat) (W - 1) ∧ s1.agentY = s.agentY ∧
      s.newMap.PaintedOn s1.newMap
        (fun y x => y = s.agentY ∧ s.agentX ≤ x ∧ x ≤ min (s.agentX + n * I.toNat - 1) (W - 1))
        (fun _ _ => 1) := by
  induction n generalizing s with
  | zero =>
    refine ⟨s, rfl, hs, hst, ?_, rfl, Map.paintedOn_refl _ _ ?_⟩
    · have := hs.2.2.1
      simp only [Nat.cast_zero, zero_mul, add_zero]
      rw [min_eq_left (by omega)]
    · rintro y x ⟨_, h1, h2⟩
      simp only [Nat.cast_zero, zero_mul, add_zero, le_min_iff] at h2
      omega
  | succ n ih =>
    obtain ⟨s1, h1, hi1, hst1, hx1, hy1, hp1⟩ :=
      walk_straight roomSizeX roomSizeY I.toNat s hs hst
    obtain ⟨s2, h2, hi2, hst2, hx2, hy2, hp2⟩ := ih s1 hi1 hst1
    have hk : (0 : Int) ≤ (n : Int) * (I.toNat : Int) := by positivity
    have hmul : ((n + 1 : Nat) : Int) * (I.toNat : Int) = (n : Int) * (I.toNat : Int) + I.toNat := by
      push_cast
      ring
    generalize (n : Int) * (I.toNat : Int) = k at hk hmul hx2 hp2
    refine ⟨s2, by simp only [walks, h1, Option.some_bind, h2], hi2, hst2, ?_, ?_, ?_⟩
    · rw [hx2, hx1, hmul]
      have := hs.2.2.1
      simp only [min_def]
      split_ifs <;> omega
    · rw [hy2, hy1]
    · refine Map.paintedOn_trans hp1 hp2 ?_
      intro y x
      rw [hx1, hy1, hmul]
      have := hs.2.2.1
      simp only [min_def]
      split_ifs <;> constructor <;> intro h <;> omega

/-! ## drunkAgent: walker, straight walk, step, invariant -/

/-- C3, as stated, fails: with the walker of the driver at `(5, 10)` on the
all-zero 20 by 10 grid, outside the grid, `drunkAgent` returns with the walker
still at `(5, 10)`, which is not inside `[0, 20) x [0, 10)`. -/
theorem drunkAgent_outside_start_stays :
    ∃ r, drunkAgent (constMap 20 10 0) 20 10 5 10 5 3 (Double.round (1 / 10))
        (Double.round (5 / 100)) (Double.round (2 / 10)) (Double.round (3 / 100)) 5 10
        zeroRng = some r ∧
      r.2.1 = 5 ∧ r.2.2 = 10 ∧ ¬ (0 ≤ r.2.1 ∧ r.2.1 < 20 ∧ 0 ≤ r.2.2 ∧ r.2.2 < 10) :=
  ⟨_, rfl, rfl, rfl, by decide⟩

/-- C3, amended: on a `W` by `H` grid with the walker starting inside
`[0, W) x [0, H)`, for all `J`, `I`, probabilities and draws, `drunkAgent`
returns whenever neither room size is `1`, and whenever it returns the walker
it leaves behind is inside `[0, W) x [0, H)`. -/
theorem drunkAgent_walker_inside (currentMap : Map) (W H J I roomSizeX roomSizeY : Int)
    (probGenerateRoom probIncreaseRoom probChangeDirection probIncreaseChange : Double)
    (agentX agentY : Int) (rng : Rng) (hs : currentMap.HasShape W H)
    (hx0 : 0 ≤ agentX) (hx : agentX < W) (hy0 : 0 ≤ agentY) (hy : agentY < H) :
    (roomSizeX ≠ 1 → roomSizeY ≠ 1 →
      ∃ r, drunkAgent currentMap W H J I roomSizeX roomSizeY probGenerateRoom probIncreaseRoom
        probChangeDirection probIncreaseChange agentX agentY rng = some r) ∧
    ∀ r, drunkAgent currentMap W H J I roomSizeX roomSizeY probGenerateRoom probIncreaseRoom
        probChangeDirection probIncreaseChange agentX agentY rng = some r →
      0 ≤ r.2.1 ∧ r.2.1 < W ∧ 0 ≤ r.2.2 ∧ r.2.2 < H := by
  have h := drunkAgent_spec J I roomSizeX roomSizeY probGenerateRoom probIncreaseRoom
    probChangeDirection probIncreaseChange rng hs hx0 hx hy0 hy
  exact ⟨h.1, fun r hr => (h.2 r hr).2.2⟩

theorem drunkAgent_walker_inside_witness :
    (Map.HasShape (constMap 20 10 0) 20 10 ∧ (0 : Int) ≤ 10 ∧ (10 : Int) < 20 ∧
      (0 : Int) ≤ 5 ∧ (5 : Int) < 10) ∧
    ((5 : Int) ≠ 1 → (3 : Int) ≠ 1 →
      ∃ r, drunkAgent (constMap 20 10 0) 20 10 5 10 5 3 (Double.round (1 / 10))
        (Double.round (5 / 100)) (Double.round (2 / 10)) (Double.round (3 / 100)) 10 5
        zeroRng = some r) ∧
    ∀ r, drunkAgent (constMap 20 10 0) 20 10 5 10 5 3 (Double.round (1 / 10))
        (Double.round (5 / 100)) (Double.round (2 / 10)) (Double.round (3 / 100)) 10 5
        zeroRng = some r →
      0 ≤ r.2.1 ∧ r.2.1 < 20 ∧ 0 ≤ r.2.2 ∧ r.2.2 < 10 :=
  ⟨by decide, drunkAgent_walker_inside (constMap 20 10 0) 20 10 5 10 5 3 _ _ _ _ 10 5 zeroRng
    (by decide) (by decide) (by decide) (by decide) (by decide)⟩

/-- C5: on a `W` by `H` grid with the walker starting inside it at `(x, y)`,
`J, I >= 0`, the four probability parameters `0` and no negative draw,
`drunkAgent` returns the grid with exactly the cells `(x1, y)`,
`x <= x1 <= min (x + J * I - 1) (W - 1)`, set to `1` and every other cell
unchanged, and leaves the walker at `(min (x + J * I) (W - 1), y)`. -/
theorem drunkAgent_straight (G : Map) (W H J I roomSizeX roomSizeY x y : Int) (rng : Rng)
    (hs : G.HasShape W H) (hx0 : 0 ≤ x) (hx : x < W) (hy0 : 0 ≤ y) (hy : y < H)
    (hJ : 0 ≤ J) (hI : 0 ≤ I) (hr : ∀ n, 0 ≤ rng.reals n) :
    ∃ G1, drunkAgent G W H J I roomSizeX roomSizeY (Double.fin 0) (Double.fin 0) (Double.fin 0)
        (Double.fin 0) x y rng = some (G1, min (x + J * I) (W - 1), y) ∧
      G1.HasShape W H ∧
      ∀ y1 x1, G1.read y1 x1 =
        if y1 = y ∧ x ≤ x1 ∧ x1 ≤ min (x + J * I - 1) (W - 1) then some 1 else G.read y1 x1 := by
  obtain ⟨s1, h1, hi1, _, hx1, hy1, hp1⟩ := walks_straight roomSizeX roomSizeY I J.toNat
    (initState G (Double.fin 0) (Double.fin 0) x y rng) ⟨hs, hx0, hx, hy0, hy⟩
    ⟨rfl, rfl, rfl, rfl, hr⟩
  rw [Int.toNat_of_nonneg hJ, Int.toNat_of_nonneg hI] at hx1 hp1
  refine ⟨s1.newMap, ?_, hi1.1, ?_⟩
  · unfold drunkAgent
    rw [h1, Option.map_some', hx1, hy1]
    rfl
  · intro y1 x1
    split
    · rename_i h
      exact hp1.1 y1 x1 h
    · rename_i h
      exact hp1.2 y1 x1 h

theorem drunkAgent_straight_witness :
    (Map.HasShape (constMap 20 10 0) 20 10 ∧ (0 : Int) ≤ 10 ∧ (10 : Int) < 20 ∧
      (0 : Int) ≤ 5 ∧ (5 : Int) < 10 ∧ (0 : Int) ≤ 1 ∧ (0 : Int) ≤ 1 ∧
      ∀ n, 0 ≤ zeroRng.reals n) ∧
    ∃ G1, drunkAgent (constMap 20 10 0) 20 10 1 1 5 3 (Double.fin 0) (Double.fin 0)
        (Double.fin 0) (Double.fin 0) 10 5 zeroRng = some (G1, 11, 5) ∧
      G1.HasShape 20 10 ∧
      ∀ y1 x1, G1.read y1 x1 =
        if y1 = 5 ∧ x1 = 10 then some 1 else (constMap 20 10 0).read y1 x1 := by
  refine ⟨⟨by decide, by decide, by decide, by decide, by decide, by decide, by decide,
    fun _ => le_refl _⟩, ?_⟩
  obtain ⟨G1, h1, h2, h3⟩ := drunkAgent_straight (constMap 20 10 0) 20 10 1 1 5 3 10 5 zeroRng
    (by decide) (by decide) (by decide) (by decide) (by decide) (by decide) (by decide)
    (fun _ => le_refl _)
  refine ⟨G1, h1, h2, ?_⟩
  intro y1 x1
  rw [h3]
  have h4 : min ((10 : Int) + 1 * 1 - 1) (20 - 1) = 10 := by decide
  rw [h4]
  by_cases h5 : y1 = 5 ∧ x1 = 10
  · rw [if_pos h5, if_pos ⟨h5.1, by omega, by omega⟩]
  · rw [if_neg h5, if_neg (fun h => h5 ⟨h.1, by omega⟩)]

/-- C9: one executed step of `drunkAgent` from a walker inside the `W` by `H`
grid at `(x, y)` completes whenever neither room size is `1`, and after it the
cell `(x, y)` of the working grid is `1`, the movement vector is the drawn one of
`(1,0), (-1,0), (0,1), (0,-1)` when the direction roll succeeds and the previous
one otherwise (`(1, 0)` at the start of the call), and the walker is at
`(max 0 (min (W-1) (x + dx)), max 0 (min (H-1) (y + dy)))` for that vector. -/
theorem agentStep_post (W H roomSizeX roomSizeY : Int)
    (probIncreaseRoom probIncreaseChange : Double) (s : AgentState)
    (hs : s.newMap.HasShape W H) (hx0 : 0 ≤ s.agentX) (hx : s.agentX < W)
    (hy0 : 0 ≤ s.agentY) (hy : s.agentY < H) :
    (roomSizeX ≠ 1 → roomSizeY ≠ 1 →
      ∃ s1, agentStep W H roomSizeX roomSizeY probIncreaseRoom probIncreaseChange s = some s1) ∧
    (∀ s1, agentStep W H roomSizeX roomSizeY probIncreaseRoom probIncreaseChange s = some s1 →
      s1.newMap.read s.agentY s.agentX = some 1 ∧
      (s1.dx, s1.dy) = (if turns s then directions (s.rng.dirs 0) else (s.dx, s.dy)) ∧
      s1.agentX = max 0 (min (W - 1) (s.agentX + s1.dx)) ∧
      s1.agentY = max 0 (min (H - 1) (s.agentY + s1.dy))) ∧
    (∀ d, directions d = (1, 0) ∨ directions d = (-1, 0) ∨ directions d = (0, 1) ∨
      directions d = (0, -1)) ∧
    (∀ G p q ax ay rng, (initState G p q ax ay rng).dx = 1 ∧ (initState G p q ax ay rng).dy = 0) := by
  have h := agentStep_spec roomSizeX roomSizeY probIncreaseRoom probIncreaseChange s
    ⟨hs, hx0, hx, hy0, hy⟩
  refine ⟨h.1, ?_, ?_, ?_⟩
  · intro s1 h1
    obtain ⟨_, _, h2, h3, h4, h5⟩ := h.2 s1 h1
    exact ⟨h2, h3, h4, h5⟩
  · intro d
    fin_cases d <;> simp [directions]
  · intro G p q ax ay rng
    exact ⟨rfl, rfl⟩

theorem agentStep_post_witness :
    (Map.HasShape (initState (constMap 20 10 0) (Double.fin 0) (Double.fin 1) 19 5
        zeroRng).newMap 20 10 ∧
      0 ≤ (initState (constMap 20 10 0) (Double.fin 0) (Double.fin 1) 19 5 zeroRng).agentX ∧
      (initState (constMap 20 10 0) (Double.fin 0) (Double.fin 1) 19 5 zeroRng).agentX < 20 ∧
      0 ≤ (initState (constMap 20 10 0) (Double.fin 0) (Double.fin 1) 19 5 zeroRng).agentY ∧
      (initState (constMap 20 10 0) (Double.fin 0) (Double.fin 1) 19 5 zeroRng).agentY < 10) ∧
    ((5 : Int) ≠ 1 → (3 : Int) ≠ 1 →
      ∃ s1, agentStep 20 10 5 3 (Double.fin 0) (Double.fin 0)
        (initState (constMap 20 10 0) (Double.fin 0) (Double.fin 1) 19 5 zeroRng) = some s1) ∧
    (∀ s1, agentStep 20 10 5 3 (Double.fin 0) (Double.fin 0)
        (initState (constMap 20 10 0) (Double.fin 0) (Double.fin 1) 19 5 zeroRng) = some s1 →
      s1.newMap.read (initState (constMap 20 10 0) (Double.fin 0) (Double.fin 1) 19 5
          zeroRng).agentY
        (initState (constMap 20 10 0) (Double.fin 0) (Double.fin 1) 19 5 zeroRng).agentX =
          some 1 ∧
      (s1.dx, s1.dy) =
        (if turns (initState (constMap 20 10 0) (Double.fin 0) (Double.fin 1) 19 5 zeroRng)
          then directions
            ((initState (constMap 20 10 0) (Double.fin 0) (Double.fin 1) 19 5
              zeroRng).rng.dirs 0)
          else ((initState (constMap 20 10 0) (Double.fin 0) (Double.fin 1) 19 5 zeroRng).dx,
            (initState (constMap 20 10 0) (Double.fin 0) (Double.fin 1) 19 5 zeroRng).dy)) ∧
      s1.agentX = max 0 (min (20 - 1)
        ((initState (constMap 20 10 0) (Double.fin 0) (Double.fin 1) 19 5 zeroRng).agentX +
          s1.dx)) ∧
      s1.agentY = max 0 (min (10 - 1)
        ((initState (constMap 20 10 0) (Double.fin 0) (Double.fin 1) 19 5 zeroRng).agentY +
          s1.dy))) ∧
    (∀ d, directions d = (1, 0) ∨ directions d = (-1, 0) ∨ directions d = (0, 1) ∨
      directions d = (0, -1)) ∧
    (∀ G p q ax ay rng, (initState G p q ax ay rng).dx = 1 ∧ (initState G p q ax ay rng).dy = 0) :=
  ⟨by decide, agentStep_post 20 10 5 3 (Double.fin 0) (Double.fin 0)
    (initState (constMap 20 10 0) (Double.fin 0) (Double.fin 1) 19 5 zeroRng)
    (by decide) (by decide) (by decide) (by decide) (by decide)⟩

/-- C10: on a grid of `H` rows of `W` columns with every cell `0` or `1` and the
walker starting inside `[0, W) x [0, H)`, for all `J`, `I`, room sizes
`maxW, maxH >= 2`, probabilities and draws, `drunkAgent` makes no out-of-bounds
access and returns a grid of `H` rows of `W` columns with every cell `0` or `1`
and a walker inside `[0, W) x [0, H)`. -/
theorem drunkAgent_preserves (G : Map) (W H J I maxW maxH : Int)
    (probGenerateRoom probIncreaseRoom probChangeDirection probIncreaseChange : Double)
    (agentX agentY : Int) (rng : Rng) (hs : G.HasShape W H)
    (hbin : ∀ row ∈ G, ∀ v ∈ row, v = 0 ∨ v = 1)
    (hx0 : 0 ≤ agentX) (hx : agentX < W) (hy0 : 0 ≤ agentY) (hy : agentY < H)
    (hW : 2 ≤ maxW) (hH : 2 ≤ maxH) :
    ∃ G1 x1 y1, drunkAgent G W H J I maxW maxH probGenerateRoom probIncreaseRoom
        probChangeDirection probIncreaseChange agentX agentY rng = some (G1, x1, y1) ∧
      G1.HasShape W H ∧ (∀ row ∈ G1, ∀ v ∈ row, v = 0 ∨ v = 1) ∧
      0 ≤ x1 ∧ x1 < W ∧ 0 ≤ y1 ∧ y1 < H := by
  have h := drunkAgent_spec J I maxW maxH probGenerateRoom probIncreaseRoom
    probChangeDirection probIncreaseChange rng hs hx0 hx hy0 hy
  obtain ⟨⟨G1, x1, y1⟩, hr⟩ := h.1 (by omega) (by omega)
  obtain ⟨h1, hg, h2⟩ := h.2 _ hr
  refine ⟨G1, x1, y1, hr, h1, ?_, h2⟩
  rw [Map.forall_cells_iff] at hbin ⊢
  intro y x v hv
  rcases hg y x with h3 | h3
  · rw [h3] at hv
    simp only [Option.some.injEq] at hv
    exact Or.inr hv.symm
  · rw [h3] at hv
    exact hbin y x v hv

theorem drunkAgent_preserves_witness :
    (Map.HasShape (constMap 20 10 0) 20 10 ∧
      (∀ row ∈ constMap 20 10 0, ∀ v ∈ row, v = 0 ∨ v = 1) ∧ (0 : Int) ≤ 10 ∧ (10 : Int) < 20 ∧
      (0 : Int) ≤ 5 ∧ (5 : Int) < 10 ∧ (2 : Int) ≤ 5 ∧ (2 : Int) ≤ 3) ∧
    ∃ G1 x1 y1, drunkAgent (constMap 20 10 0) 20 10 5 10 5 3 (Double.round (1 / 10))
        (Double.round (5 / 100)) (Double.round (2 / 10)) (Double.round (3 / 100)) 10 5
        zeroRng = some (G1, x1, y1) ∧
      G1.HasShape 20 10 ∧ (∀ row ∈ G1, ∀ v ∈ row, v = 0 ∨ v = 1) ∧
      0 ≤ x1 ∧ x1 < 20 ∧ 0 ≤ y1 ∧ y1 < 10 :=
  ⟨by decide, drunkAgent_preserves (constMap 20 10 0) 20 10 5 10 5 3 _ _ _ _ 10 5 zeroRng
    (by decide) (by decide) (by decide) (by decide) (by decide) (by decide) (by decide)
    (by decide)⟩

/-! ## Rounding is monotone -/

namespace Double

theorem round_eq_nearest (q : ℚ) :
    round q = if (2 : ℚ) ^ 1024 ≤ nearest q then pinf
      else if nearest q ≤ -(2 : ℚ) ^ 1024 then ninf else fin (nearest q) := rfl

theorem quantum_eq (q : ℚ) : quantum q = (2 : ℚ) ^ (expo q - 52) := rfl

theorem quantum_pos (q : ℚ) : 0 < quantum q := by
  rw [quantum_eq]
  exact zpow_pos (by norm_num) _

theorem floor_le_roundHalfEven (x : ℚ) : ⌊x⌋ ≤ roundHalfEven x := by
  unfold roundHalfEven
  split_ifs <;> omega

theorem roundHalfEven_le_floor_add_one (x : ℚ) : roundHalfEven x ≤ ⌊x⌋ + 1 := by
  unfold roundHalfEven
  split_ifs <;> omega

theorem roundHalfEven_mono {x y : ℚ} (h : x ≤ y) : roundHalfEven x ≤ roundHalfEven y := by
  rcases lt_or_eq_of_le (Int.floor_mono h) with hlt | heq
  · calc roundHalfEven x ≤ ⌊x⌋ + 1 := roundHalfEven_le_floor_add_one x
      _ ≤ ⌊y⌋ := hlt
      _ ≤ roundHalfEven y := floor_le_roundHalfEven y
  · unfold roundHalfEven
    rw [heq]
    rw [heq] at *
    split_ifs <;> first | omega | (exfalso; linarith)

theorem expo_ge (q : ℚ) : -1022 ≤ expo q := le_max_right _ _

theorem abs_lt_zpow_expo (q : ℚ) : |q| < (2 : ℚ) ^ (expo q + 1) := by
  have h1 : |q| < ((2 : ℕ) : ℚ) ^ (Int.log 2 |q| + 1) := Int.lt_zpow_succ_log_self (by norm_num) _
  rw [Nat.cast_ofNat] at h1
  refine lt_of_lt_of_le h1 ?_
  apply zpow_le_zpow_right₀ (by norm_num)
  have := le_max_left (Int.log 2 |q|) (-1022)
  unfold expo
  omega

theorem zpow_expo_le_abs {q : ℚ} (hq : q ≠ 0) (he : -1022 < expo q) :
    (2 : ℚ) ^ expo q ≤ |q| := by
  have h1 : ((2 : ℕ) : ℚ) ^ Int.log 2 |q| ≤ |q| :=
    Int.zpow_log_le_self (by norm_num) (abs_pos.2 hq)
  rw [Nat.cast_ofNat] at h1
  have : expo q = Int.log 2 |q| := by
    unfold expo at he ⊢
    rcases max_cases (Int.log 2 |q|) (-1022) with ⟨h, _⟩ | ⟨h, _⟩
    · exact h
    · rw [h] at he
      omega
  rw [this]
  exact h1

theorem expo_mono {p q : ℚ} (hp : p ≠ 0) (h : |p| ≤ |q|) : expo p ≤ expo q := by
  unfold expo
  exact max_le_max (Int.log_mono_right (abs_pos.2 hp) h) (le_refl _)

theorem zpow_split (e : ℤ) : (2 : ℚ) ^ (e + 1) = 9007199254740992 * (2 : ℚ) ^ (e - 52) := by
  have h : (9007199254740992 : ℚ) = (2 : ℚ) ^ (53 : ℕ) := by norm_num
  rw [h, ← zpow_natCast, ← zpow_add₀ (by norm_num : (2 : ℚ) ≠ 0)]
  congr 1
  push_cast
  ring

theorem zpow_split_low (e : ℤ) : (2 : ℚ) ^ e = 4503599627370496 * (2 : ℚ) ^ (e - 52) := by
  have h : (4503599627370496 : ℚ) = (2 : ℚ) ^ (52 : ℕ) := by norm_num
  rw [h, ← zpow_natCast, ← zpow_add₀ (by norm_num : (2 : ℚ) ≠ 0)]
  congr 1
  push_cast
  ring

theorem nearest_le_of_le_int {q : ℚ} (z : ℤ) (h : q ≤ (z : ℚ) * quantum q) :
    nearest q ≤ (z : ℚ) * quantum q := by
  unfold nearest
  apply mul_le_mul_of_nonneg_right _ (le_of_lt (quantum_pos q))
  have h1 : q / quantum q ≤ (z : ℚ) := (div_le_iff₀ (quantum_pos q)).2 h
  have := roundHalfEven_mono h1
  rw [roundHalfEven_intCast] at this
  exact_mod_cast this

theorem le_nearest_of_int_le {q : ℚ} (z : ℤ) (h : (z : ℚ) * quantum q ≤ q) :
    (z : ℚ) * quantum q ≤ nearest q := by
  unfold nearest
  apply mul_le_mul_of_nonneg_right _ (le_of_lt (quantum_pos q))
  have h1 : (z : ℚ) ≤ q / quantum q := (le_div_iff₀ (quantum_pos q)).2 h
  have := roundHalfEven_mono h1
  rw [roundHalfEven_intCast] at this
  exact_mod_cast this

theorem nearest_nonneg {q : ℚ} (h : 0 ≤ q) : 0 ≤ nearest q := by
  have := le_nearest_of_int_le 0 (by simpa using h : ((0 : ℤ) : ℚ) * quantum q ≤ q)
  simpa using this

theorem nearest_nonpos {q : ℚ} (h : q ≤ 0) : nearest q ≤ 0 := by
  have := nearest_le_of_le_int 0 (by simpa using h : q ≤ ((0 : ℤ) : ℚ) * quantum q)
  simpa using this

theorem nearest_le_zpow (q : ℚ) : nearest q ≤ (2 : ℚ) ^ (expo q + 1) := by
  have h1 := abs_lt_zpow_expo q
  have h2 : q ≤ ((9007199254740992 : ℤ) : ℚ) * quantum q := by
    rw [quantum_eq]
    push_cast
    rw [← zpow_split]
    exact le_trans (le_abs_self q) (le_of_lt h1)
  have := nearest_le_of_le_int _ h2
  rw [quantum_eq] at this
  push_cast at this
  rw [← zpow_split] at this
  exact this

theorem neg_zpow_le_nearest (q : ℚ) : -(2 : ℚ) ^ (expo q + 1) ≤ nearest q := by
  have h1 := abs_lt_zpow_expo q
  have h2 : ((-9007199254740992 : ℤ) : ℚ) * quantum q ≤ q := by
    rw [quantum_eq]
    push_cast
    rw [neg_mul, ← zpow_split]
    linarith [neg_abs_le q]
  have := le_nearest_of_int_le _ h2
  rw [quantum_eq] at this
  push_cast at this
  rw [neg_mul, ← zpow_split] at this
  exact this

theorem zpow_le_nearest {q : ℚ} (hq : 0 < q) (he : -1022 < expo q) :
    (2 : ℚ) ^ expo q ≤ nearest q := by
  have h1 := zpow_expo_le_abs (ne_of_gt hq) he
  rw [abs_of_pos hq] at h1
  have h2 : ((4503599627370496 : ℤ) : ℚ) * quantum q ≤ q := by
    rw [quantum_eq]
    push_cast
    rw [← zpow_split_low]
    exact h1
  have := le_nearest_of_int_le _ h2
  rw [quantum_eq] at this
  push_cast at this
  rw [← zpow_split_low] at this
  exact this

theorem nearest_le_neg_zpow {q : ℚ} (hq : q < 0) (he : -1022 < expo q) :
    nearest q ≤ -(2 : ℚ) ^ expo q := by
  have h1 := zpow_expo_le_abs (ne_of_lt hq) he
  rw [abs_of_neg hq] at h1
  have h2 : q ≤ ((-4503599627370496 : ℤ) : ℚ) * quantum q := by
    rw [quantum_eq]
    push_cast
    rw [neg_mul, ← zpow_split_low]
    linarith
  have := nearest_le_of_le_int _ h2
  rw [quantum_eq] at this
  push_cast at this
  rw [neg_mul, ← zpow_split_low] at this
  exact this

theorem nearest_mono_of_expo_eq {p q : ℚ} (h : p ≤ q) (he : expo p = expo q) :
    nearest p ≤ nearest q := by
  have hu : quantum p = quantum q := by rw [quantum_eq, quantum_eq, he]
  unfold nearest
  rw [hu]
  apply mul_le_mul_of_nonneg_right _ (le_of_lt (quantum_pos q))
  have : p / quantum q ≤ q / quantum q := div_le_div_of_nonneg_right h (le_of_lt (quantum_pos q))
  exact_mod_cast roundHalfEven_mono this

/-- Rounding to the binary64 grid is monotone. -/
theorem nearest_mono {p q : ℚ} (h : p ≤ q) : nearest p ≤ nearest q := by
  rcases le_or_lt p 0 with hp | hp
  · rcases le_or_lt 0 q with hq | hq
    · exact le_trans (nearest_nonpos hp) (nearest_nonneg hq)
    · have hp0 : p < 0 := lt_of_le_of_lt h hq
      have habs : |q| ≤ |p| := by
        rw [abs_of_neg hq, abs_of_neg hp0]
        linarith
      rcases lt_or_eq_of_le (expo_mono (ne_of_lt hq) habs) with hlt | heq
      · have he : -1022 < expo p := lt_of_le_of_lt (expo_ge q) hlt
        calc nearest p ≤ -(2 : ℚ) ^ expo p := nearest_le_neg_zpow hp0 he
          _ ≤ -(2 : ℚ) ^ (expo q + 1) := by
            apply neg_le_neg
            exact zpow_le_zpow_right₀ (by norm_num) (by omega)
          _ ≤ nearest q := neg_zpow_le_nearest q
      · exact nearest_mono_of_expo_eq h heq.symm
  · have hq : 0 < q := lt_of_lt_of_le hp h
    have habs : |p| ≤ |q| := by
      rw [abs_of_pos hq, abs_of_pos hp]
      exact h
    rcases lt_or_eq_of_le (expo_mono (ne_of_gt hp) habs) with hlt | heq
    · have he : -1022 < expo q := lt_of_le_of_lt (expo_ge p) hlt
      calc nearest p ≤ (2 : ℚ) ^ (expo p + 1) := nearest_le_zpow p
        _ ≤ (2 : ℚ) ^ expo q := zpow_le_zpow_right₀ (by norm_num) (by omega)
        _ ≤ nearest q := zpow_le_nearest hq he
    · exact nearest_mono_of_expo_eq h heq

/-- The operation `round` is monotone for the order of doubles. -/
theorem round_mono {p q : ℚ} (h : p ≤ q) : Double.le (round p) (round q) = true := by
  have hn := nearest_mono h
  rw [round_eq_nearest, round_eq_nearest]
  split_ifs <;> simp only [Double.le, decide_eq_true_eq] <;> first | rfl | linarith

end Double

/-! ## digRoom sizes and the walker that takes no step -/

theorem walk_outside (W H roomSizeX roomSizeY : Int)
    (probIncreaseRoom probIncreaseChange : Double) (n : Nat) (s : AgentState)
    (h : s.agentX < 0 ∨ s.agentX ≥ W ∨ s.agentY < 0 ∨ s.agentY ≥ H) :
    walk W H roomSizeX roomSizeY probIncreaseRoom probIncreaseChange n s = some s := by
  cases n with
  | zero => rfl
  | succ n => simp only [walk, if_pos h]

theorem walks_fixed (W H I roomSizeX roomSizeY : Int)
    (probIncreaseRoom probIncreaseChange : Double) (n : Nat) (s : AgentState)
    (h : walk W H roomSizeX roomSizeY probIncreaseRoom probIncreaseChange I.toNat s = some s) :
    walks W H I roomSizeX roomSizeY probIncreaseRoom probIncreaseChange n s = some s := by
  induction n with
  | zero => rfl
  | succ n ih => simp only [walks, h, Option.some_bind, ih]

theorem drunkAgent_noop (currentMap : Map) (W H J I roomSizeX roomSizeY : Int)
    (probGenerateRoom probIncreaseRoom probChangeDirection probIncreaseChange : Double)
    (agentX agentY : Int) (rng : Rng)
    (h : J ≤ 0 ∨ I ≤ 0 ∨ agentX < 0 ∨ agentX ≥ W ∨ agentY < 0 ∨ agentY ≥ H) :
    drunkAgent currentMap W H J I roomSizeX roomSizeY probGenerateRoom probIncreaseRoom
      probChangeDirection probIncreaseChange agentX agentY rng =
      some (currentMap, agentX, agentY) := by
  have hw : walks W H I roomSizeX roomSizeY probIncreaseRoom probIncreaseChange J.toNat
      (initState currentMap probGenerateRoom probChangeDirection agentX agentY rng) =
      some (initState currentMap probGenerateRoom probChangeDirection agentX agentY rng) := by
    rcases h with hJ | hI | hout
    · rw [Int.toNat_eq_zero.2 hJ]
      rfl
    · apply walks_fixed
      rw [Int.toNat_eq_zero.2 hI]
      rfl
    · apply walks_fixed
      exact walk_outside _ _ _ _ _ _ _ _ hout
  unfold drunkAgent
  rw [hw]
  rfl

/-- C11 fails on the code: with the drawn sizes `rw = rh = 4` (draws `2` and
`2`, `maxW = maxH = 4`) and the centre `(10, 5)` of the all-zero 20 by 10 grid,
far from every border, `digRoom` sets to `1` the cells of the columns `8..12`
and the rows `3..7`: five columns and five rows, not four, and more than the
maximal room size `4`. -/
theorem digRoom_even_size_spans_one_more :
    roomSize 2 4 = some 4 ∧
    ∃ map1 rest, digRoom (constMap 20 10 0) 10 5 4 4 20 10 (fun _ => 2) = some (map1, rest) ∧
      (∀ i j, map1.read i j = some 1 ↔ (8 ≤ j ∧ j ≤ 12) ∧ (3 ≤ i ∧ i ≤ 7)) ∧
      (Finset.Icc (8 : Int) 12).card = 5 ∧ (Finset.Icc (3 : Int) 7).card = 5 := by
  refine ⟨by decide, ?_⟩
  obtain ⟨map1, h1, _, hp1⟩ := digRoom_spec 10 5 (fun _ => 2) (constMap_shape 20 10 0)
    (show (4 : Int) ≠ 1 by decide) (show (4 : Int) ≠ 1 by decide)
  refine ⟨map1, _, h1, ?_, by decide, by decide⟩
  have h4 : Int.tmod ((2 : Nat) : Int) (4 - 1) + 2 = 4 := by decide
  simp only [h4] at hp1
  have h2 : Int.tdiv 4 2 = 2 := by decide
  intro i j
  by_cases hin : inRoom 10 5 4 4 ((20 : Nat) : Int) ((10 : Nat) : Int) i j
  · rw [hp1.1 i j hin]
    unfold inRoom at hin
    rw [h2] at hin
    simp only [true_iff]
    omega
  · rw [hp1.2 i j hin]
    unfold inRoom at hin
    rw [h2] at hin
    constructor
    · intro h
      obtain ⟨hy0, hy, hx0, hx⟩ := Map.read_inBounds (constMap_shape 20 10 0) h
      rw [constMap_read 20 10 0 hy0 hy hx0 hx] at h
      exact absurd h (by decide)
    · intro h
      exfalso
      apply hin
      simp only [Nat.cast_ofNat]
      omega

/-- C12: for every `maxW >= 2`, `maxH >= 2` and every draw `r` of `rand()`, the
room sizes `rw = r % (maxW - 1) + 2` and `rh = r % (maxH - 1) + 2` that `digRoom`
computes satisfy `2 <= rw <= maxW` and `2 <= rh <= maxH`, and every integer of
`[2, maxW]` (of `[2, maxH]`) is the size computed for some draw. -/
theorem roomSize_range (maxW maxH : Int) (hW : 2 ≤ maxW) (hH : 2 ≤ maxH) :
    (∀ r : Nat, ∃ rw rh, roomSize r maxW = some rw ∧ roomSize r maxH = some rh ∧
      rw = (r : Int) % (maxW - 1) + 2 ∧ rh = (r : Int) % (maxH - 1) + 2 ∧
      2 ≤ rw ∧ rw ≤ maxW ∧ 2 ≤ rh ∧ rh ≤ maxH) ∧
    (∀ k, 2 ≤ k → k ≤ maxW → ∃ r : Nat, roomSize r maxW = some k) ∧
    (∀ k, 2 ≤ k → k ≤ maxH → ∃ r : Nat, roomSize r maxH = some k) := by
  have hsurj : ∀ m : Int, 2 ≤ m → ∀ k, 2 ≤ k → k ≤ m → ∃ r : Nat, roomSize r m = some k := by
    intro m hm k hk2 hkm
    refine ⟨(k - 2).toNat, ?_⟩
    rw [roomSize_eq_emod _ hm, Int.toNat_of_nonneg (by omega),
      Int.emod_eq_of_lt (by omega) (by omega)]
    congr 1
    omega
  refine ⟨?_, hsurj maxW hW, hsurj maxH hH⟩
  intro r
  have h1 := Int.emod_nonneg (r : Int) (show maxW - 1 ≠ 0 by omega)
  have h2 := Int.emod_lt_of_pos (r : Int) (show 0 < maxW - 1 by omega)
  have h3 := Int.emod_nonneg (r : Int) (show maxH - 1 ≠ 0 by omega)
  have h4 := Int.emod_lt_of_pos (r : Int) (show 0 < maxH - 1 by omega)
  exact ⟨_, _, roomSize_eq_emod r hW, roomSize_eq_emod r hH, rfl, rfl, by omega, by omega,
    by omega, by omega⟩

theorem roomSize_range_witness :
    ((2 : Int) ≤ 5 ∧ (2 : Int) ≤ 3) ∧
    (∀ r : Nat, ∃ rw rh, roomSize r 5 = some rw ∧ roomSize r 3 = some rh ∧
      rw = (r : Int) % (5 - 1) + 2 ∧ rh = (r : Int) % (3 - 1) + 2 ∧
      2 ≤ rw ∧ rw ≤ 5 ∧ 2 ≤ rh ∧ rh ≤ 3) ∧
    (∀ k, 2 ≤ k → k ≤ 5 → ∃ r : Nat, roomSize r 5 = some k) ∧
    (∀ k, 2 ≤ k → k ≤ 3 → ∃ r : Nat, roomSize r 3 = some k) :=
  ⟨by decide, roomSize_range 5 3 (by decide) (by decide)⟩

/-- C13: when `J = 0` (or less), or `I = 0` (or less), or the walker starts
outside `[0, W) x [0, H)`, `drunkAgent` returns the input grid and leaves the
walker where it was, for every grid, configuration and sequence of draws. -/
theorem drunkAgent_no_step (currentMap : Map) (W H J I roomSizeX roomSizeY : Int)
    (probGenerateRoom probIncreaseRoom probChangeDirection probIncreaseChange : Double)
    (agentX agentY : Int) (rng : Rng)
    (h : J ≤ 0 ∨ I ≤ 0 ∨ agentX < 0 ∨ agentX ≥ W ∨ agentY < 0 ∨ agentY ≥ H) :
    drunkAgent currentMap W H J I roomSizeX roomSizeY probGenerateRoom probIncreaseRoom
      probChangeDirection probIncreaseChange agentX agentY rng =
      some (currentMap, agentX, agentY) :=
  drunkAgent_noop currentMap W H J I roomSizeX roomSizeY probGenerateRoom probIncreaseRoom
    probChangeDirection probIncreaseChange agentX agentY rng h

theorem drunkAgent_no_step_witness :
    ((5 : Int) ≤ 0 ∨ (10 : Int) ≤ 0 ∨ (5 : Int) < 0 ∨ (5 : Int) ≥ 20 ∨ (10 : Int) < 0 ∨
      (10 : Int) ≥ 10) ∧
    drunkAgent (constMap 20 10 1) 20 10 5 10 5 3 (Double.round (1 / 10))
      (Double.round (5 / 100)) (Double.round (2 / 10)) (Double.round (3 / 100)) 5 10 zeroRng =
      some (constMap 20 10 1, 5, 10) :=
  ⟨by decide, drunkAgent_no_step _ 20 10 5 10 5 3 _ _ _ _ 5 10 zeroRng (by decide)⟩

/-! ## cellularAutomata without validation -/

theorem neighbourCount_small {G : Map} {W H : Int} (hG : G.HasShape W H) (R x y : Int)
    (hR : R < 1) : neighbourCount G W H R x y = some 0 := by
  rw [neighbourCount_eq hG]
  congr 1
  apply List.sum_eq_zero
  intro a ha
  obtain ⟨dy, hdy, rfl⟩ := List.mem_map.1 ha
  apply List.sum_eq_zero
  intro b hb
  obtain ⟨dx, hdx, rfl⟩ := List.mem_map.1 hb
  rw [mem_intRange] at hdx hdy
  unfold neighbourTerm
  rw [if_pos ⟨by omega, by omega⟩]

theorem countAt_small {G : Map} {W H : Int} (hG : G.HasShape W H) (R x y : Int)
    (hR : R < 1) : countAt G W H R x y = 0 := by
  have h1 := neighbourCount_small hG R x y hR
  rw [neighbourCount_eq hG] at h1
  simpa [countAt] using h1

/-! ## The run of main -/

theorem cellularAutomata_constMap_zero (W H : Nat) (R : Int) (U : Double)
    (hU : Double.le (Double.fin 0) U = true) :
    cellularAutomata (constMap W H 0) W H R U = some (constMap W H 0) := by
  obtain ⟨G1, h1, hs, h2⟩ := cellularAutomata_spec R U (constMap_shape W H 0)
  rw [h1]
  congr 1
  apply Map.ext_of_read hs (constMap_shape W H 0)
  intro x y hx0 hx hy0 hy
  rw [h2 x y hx0 hx hy0 hy, constMap_read W H 0 hy0 hy hx0 hx]
  unfold newCell ratioOf
  rw [countAt_zero, Double.gt_divInt_zero _ U hU]
  rfl

theorem Double.round_half : Double.round (1 / 2) = Double.fin (1 / 2) := by
  have hb : |((1 : ℤ) : ℚ) * (2 : ℚ) ^ (-1 : ℤ)| < (2 : ℚ) ^ 1024 := by
    rw [abs_of_pos (by norm_num)]
    exact lt_of_lt_of_le (by norm_num : ((1 : ℤ) : ℚ) * (2 : ℚ) ^ (-1 : ℤ) < 1)
      (one_le_pow₀ (by norm_num))
  have h := Double.round_dyadic 1 (-1) (by norm_num) (by norm_num) hb
  have h2 : ((1 : ℤ) : ℚ) * (2 : ℚ) ^ (-1 : ℤ) = 1 / 2 := by norm_num
  rw [h2] at h
  exact h

theorem mainIteration_zero (rng : Rng) :
    mainIteration rng (constMap 20 10 0, 5, 10) = some (constMap 20 10 0, 5, 10) := by
  unfold mainIteration
  have h1 := cellularAutomata_constMap_zero 20 10 1 (Double.round (1 / 2))
    (by rw [Double.round_half]; simp [Double.le])
  simp only [Nat.cast_ofNat] at h1
  rw [h1, Option.some_bind]
  exact drunkAgent_noop _ 20 10 5 10 5 3 _ _ _ _ 5 10 rng (by decide)

theorem mainLoop_zero (rngs : Nat → Rng) (n k : Nat) :
    mainLoop rngs n k (constMap 20 10 0, 5, 10) =
      some (List.replicate n (constMap 20 10 0), (constMap 20 10 0, 5, 10)) := by
  induction n generalizing k with
  | zero => rfl
  | succ n ih =>
    simp only [mainLoop, mainIteration_zero, Option.some_bind, ih, Option.map_some',
      List.replicate_succ]

/-- C15: in the run of `main`, for every outcome of the random generator, the
walker starts at `(5, 10)`, outside the 20 by 10 grid (`10 < 10` is false), every
call of `drunkAgent` returns its input and leaves the walker there, every grid
passed to `printMap` (the initial one and those of the 5 iterations) is the
all-zero grid, and at the end the walker is still at `(5, 10)`. -/
theorem main_prints_zeros (rngs : Nat → Rng) :
    main rngs = some (List.replicate 6 (constMap 20 10 0), (constMap 20 10 0, 5, 10)) ∧
    (∀ rng, drunkAgent (constMap 20 10 0) 20 10 5 10 5 3 (Double.round (1 / 10))
      (Double.round (5 / 100)) (Double.round (2 / 10)) (Double.round (3 / 100)) 5 10 rng =
      some (constMap 20 10 0, 5, 10)) ∧
    ¬ ((10 : Int) < 10) := by
  refine ⟨?_, fun rng => drunkAgent_noop _ 20 10 5 10 5 3 _ _ _ _ 5 10 rng (by decide),
    by decide⟩
  have h5 : (10 : Int) / 2 = 5 := by decide
  have h10 : (20 : Int) / 2 = 10 := by decide
  unfold main
  rw [h5, h10, mainLoop_zero]
  rfl

/-! ## The probabilities of a step -/

theorem Double.lt_false_of_le {a b : Double} (h : Double.le a b = true) :
    Double.lt b a = false := by
  cases a <;> cases b <;> simp_all [Double.le, Double.lt]

theorem Double.lt_of_le_lt {a b c : Double} (h1 : Double.le a b = true)
    (h2 : Double.lt b c = true) : Double.lt a c = true := by
  cases a <;> cases b <;> cases c <;> simp_all [Double.le, Double.lt]
  exact lt_of_le_of_lt h1 h2

theorem Double.lt_of_lt_le {a b c : Double} (h1 : Double.lt a b = true)
    (h2 : Double.le b c = true) : Double.lt a c = true := by
  cases a <;> cases b <;> cases c <;> simp_all [Double.le, Double.lt]
  exact lt_of_lt_of_le h1 h2

theorem Double.add_not_lt_self {p inc : Double} (hp : p.IsBinary64)
    (hinc : Double.le (Double.fin 0) inc = true) : Double.lt (Double.add p inc) p = false := by
  cases p with
  | nan => cases inc <;> simp [Double.add, Double.lt]
  | ninf => cases inc <;> simp_all [Double.add, Double.lt, Double.le]
  | pinf => cases inc <;> simp_all [Double.add, Double.lt, Double.le]
  | fin q =>
    cases inc with
    | nan => simp [Double.le] at hinc
    | ninf => simp [Double.le] at hinc
    | pinf => simp [Double.add, Double.lt]
    | fin d =>
      have hd : (0 : ℚ) ≤ d := by simpa [Double.le] using hinc
      have hm := Double.round_mono (show q ≤ q + d by linarith)
      have hq : Double.round q = Double.fin q := hp
      rw [hq] at hm
      exact Double.lt_false_of_le hm

theorem Double.lt_of_one_le {p : Double} {u : ℚ} (hp : Double.le (Double.fin 1) p = true)
    (hu : u < 1) : Double.lt (Double.fin u) p = true := by
  cases p <;> simp_all [Double.le, Double.lt]
  exact lt_of_lt_of_le hu hp

theorem Double.add_one_one : Double.add (Double.fin 1) (Double.fin 1) = Double.fin 2 := by
  have hb : |((1 : ℤ) : ℚ) * (2 : ℚ) ^ (1 : ℤ)| < (2 : ℚ) ^ 1024 := by
    rw [abs_of_pos (by norm_num)]
    calc ((1 : ℤ) : ℚ) * (2 : ℚ) ^ (1 : ℤ) = (2 : ℚ) ^ 1 := by norm_num
      _ < (2 : ℚ) ^ 1024 := pow_lt_pow_right₀ (by norm_num) (by norm_num)
  have h := Double.round_dyadic 1 1 (by norm_num) (by norm_num) hb
  have h2 : ((1 : ℤ) : ℚ) * (2 : ℚ) ^ (1 : ℤ) = 2 := by norm_num
  rw [h2] at h
  have h3 : (1 : ℚ) + 1 = 2 := by norm_num
  simp only [Double.add, h3, h]

/-- C16: in one completed step of `drunkAgent` with the draws `u1` and `u2`
of `random01`: when `u1 < probGenerateRoom` a room is carved by `digRoom` and
`probGenerateRoom` becomes the literal `0.1`, otherwise it becomes
`probGenerateRoom + probIncreaseRoom`, not capped (`1 + 1` gives `2`);
`probChangeDirection` becomes `0.2` when `u2 < probChangeDirection` and
`probChangeDirection + probIncreaseChange` otherwise. With a non-negative
increment a failed roll does not decrease the probability, and a probability
`>= 1` makes the roll succeed for every draw below `1`. -/
theorem agentStep_probabilities (W H roomSizeX roomSizeY : Int)
    (probIncreaseRoom probIncreaseChange : Double) (s s1 : AgentState)
    (h : agentStep W H roomSizeX roomSizeY probIncreaseRoom probIncreaseChange s = some s1) :
    (s1.probGenerateRoom =
      if Double.lt (Double.fin (s.rng.reals 0)) s.probGenerateRoom then Double.round (1 / 10)
      else Double.add s.probGenerateRoom probIncreaseRoom) ∧
    (Double.lt (Double.fin (s.rng.reals 0)) s.probGenerateRoom = true →
      ∃ m1 rest, s.newMap.write s.agentY s.agentX 1 = some m1 ∧
        digRoom m1 s.agentX s.agentY roomSizeX roomSizeY W H s.rng.rands =
          some (s1.newMap, rest)) ∧
    (s1.probChangeDirection =
      if Double.lt (Double.fin (s.rng.reals 1)) s.probChangeDirection then Double.round (2 / 10)
      else Double.add s.probChangeDirection probIncreaseChange) ∧
    (Double.add (Double.fin 1) (Double.fin 1) = Double.fin 2) ∧
    (s.probGenerateRoom.IsBinary64 → Double.le (Double.fin 0) probIncreaseRoom = true →
      Double.lt (Double.fin (s.rng.reals 0)) s.probGenerateRoom = false →
      Double.lt s1.probGenerateRoom s.probGenerateRoom = false) ∧
    (s.probChangeDirection.IsBinary64 → Double.le (Double.fin 0) probIncreaseChange = true →
      Double.lt (Double.fin (s.rng.reals 1)) s.probChangeDirection = false →
      Double.lt s1.probChangeDirection s.probChangeDirection = false) ∧
    (Double.le (Double.fin 1) s.probGenerateRoom = true → s.rng.reals 0 < 1 →
      Double.lt (Double.fin (s.rng.reals 0)) s.probGenerateRoom = true ∧
      s1.probGenerateRoom = Double.round (1 / 10)) ∧
    (Double.le (Double.fin 1) s.probChangeDirection = true → s.rng.reals 1 < 1 →
      Double.lt (Double.fin (s.rng.reals 1)) s.probChangeDirection = true ∧
      s1.probChangeDirection = Double.round (2 / 10)) := by
  unfold agentStep at h
  simp only [Option.bind_eq_some, Option.map_eq_some'] at h
  obtain ⟨m1, hw, r, hr, rfl⟩ := h
  have hroom : r.2.2 =
      if Double.lt (Double.fin (s.rng.reals 0)) s.probGenerateRoom then Double.round (1 / 10)
      else Double.add s.probGenerateRoom probIncreaseRoom := by
    unfold roomRoll at hr
    split at hr
    · rename_i hlt
      simp only [Option.map_eq_some'] at hr
      obtain ⟨d, _, rfl⟩ := hr
      rw [if_pos hlt]
    · rename_i hlt
      simp only [Option.some.injEq] at hr
      subst hr
      rw [if_neg hlt]
  have hturn : (if turns s then Double.round (2 / 10)
      else Double.add s.probChangeDirection probIncreaseChange) =
      if Double.lt (Double.fin (s.rng.reals 1)) s.probChangeDirection then Double.round (2 / 10)
      else Double.add s.probChangeDirection probIncreaseChange := rfl
  refine ⟨hroom, ?_, hturn, Double.add_one_one, ?_, ?_, ?_, ?_⟩
  · intro hlt
    refine ⟨m1, r.2.1, hw, ?_⟩
    unfold roomRoll at hr
    rw [if_pos hlt] at hr
    simp only [Option.map_eq_some'] at hr
    obtain ⟨d, hd, rfl⟩ := hr
    exact hd
  · intro hp hinc hlt
    show Double.lt r.2.2 s.probGenerateRoom = false
    rw [hroom, hlt]
    exact Double.add_not_lt_self hp hinc
  · intro hp hinc hlt
    show Double.lt (if turns s then _ else _) s.probChangeDirection = false
    rw [hturn, hlt]
    exact Double.add_not_lt_self hp hinc
  · intro hp hu
    have hlt := Double.lt_of_one_le hp hu
    refine ⟨hlt, ?_⟩
    show r.2.2 = _
    rw [hroom, hlt]
    rfl
  · intro hp hu
    have hlt := Double.lt_of_one_le hp hu
    refine ⟨hlt, ?_⟩
    show (if turns s then _ else _) = _
    rw [hturn, hlt]
    rfl

/-! ## drunkAgent only adds cells -/

theorem agentStep_probabilities_witness :
    ∃ s1, agentStep 20 10 5 3 (Double.fin 0) (Double.fin 0) startState = some s1 ∧
    ((s1.probGenerateRoom =
      if Double.lt (Double.fin (startState.rng.reals 0)) startState.probGenerateRoom
      then Double.round (1 / 10)
      else Double.add startState.probGenerateRoom (Double.fin 0)) ∧
    (Double.lt (Double.fin (startState.rng.reals 0)) startState.probGenerateRoom = true →
      ∃ m1 rest, startState.newMap.write startState.agentY startState.agentX 1 = some m1 ∧
        digRoom m1 startState.agentX startState.agentY 5 3 20 10 startState.rng.rands =
          some (s1.newMap, rest)) ∧
    (s1.probChangeDirection =
      if Double.lt (Double.fin (startState.rng.reals 1)) startState.probChangeDirection
      then Double.round (2 / 10)
      else Double.add startState.probChangeDirection (Double.fin 0)) ∧
    (Double.add (Double.fin 1) (Double.fin 1) = Double.fin 2) ∧
    (startState.probGenerateRoom.IsBinary64 →
      Double.le (Double.fin 0) (Double.fin 0) = true →
      Double.lt (Double.fin (startState.rng.reals 0)) startState.probGenerateRoom = false →
      Double.lt s1.probGenerateRoom startState.probGenerateRoom = false) ∧
    (startState.probChangeDirection.IsBinary64 →
      Double.le (Double.fin 0) (Double.fin 0) = true →
      Double.lt (Double.fin (startState.rng.reals 1)) startState.probChangeDirection = false →
      Double.lt s1.probChangeDirection startState.probChangeDirection = false) ∧
    (Double.le (Double.fin 1) startState.probGenerateRoom = true →
      startState.rng.reals 0 < 1 →
      Double.lt (Double.fin (startState.rng.reals 0)) startState.probGenerateRoom = true ∧
      s1.probGenerateRoom = Double.round (1 / 10)) ∧
    (Double.le (Double.fin 1) startState.probChangeDirection = true →
      startState.rng.reals 1 < 1 →
      Double.lt (Double.fin (startState.rng.reals 1)) startState.probChangeDirection = true ∧
      s1.probChangeDirection = Double.round (2 / 10))) := by
  obtain ⟨s1, h1, _⟩ := agentStep_straight 5 3 startState
    (show startState.Inside 20 10 from ⟨by decide, by decide, by decide, by decide, by decide⟩)
    ⟨rfl, rfl, rfl, rfl, fun _ => le_refl _⟩
  exact ⟨s1, h1, agentStep_probabilities 20 10 5 3 _ _ startState s1 h1⟩

theorem walk_any {W H : Int} (roomSizeX roomSizeY : Int)
    (probIncreaseRoom probIncreaseChange : Double) (n : Nat) (s : AgentState)
    (hs : s.newMap.HasShape W H) :
    (roomSizeX ≠ 1 → roomSizeY ≠ 1 →
      ∃ s1, walk W H roomSizeX roomSizeY probIncreaseRoom probIncreaseChange n s = some s1) ∧
    ∀ s1, walk W H roomSizeX roomSizeY probIncreaseRoom probIncreaseChange n s = some s1 →
      s1.newMap.HasShape W H ∧ s.newMap.Grows s1.newMap := by
  by_cases hout : s.agentX < 0 ∨ s.agentX ≥ W ∨ s.agentY < 0 ∨ s.agentY ≥ H
  · have hw := walk_outside W H roomSizeX roomSizeY probIncreaseRoom probIncreaseChange n s hout
    refine ⟨fun _ _ => ⟨s, hw⟩, ?_⟩
    intro s1 h1
    rw [hw, Option.some.injEq] at h1
    subst h1
    exact ⟨hs, Map.grows_refl _⟩
  · have hin : s.Inside W H := ⟨hs, by omega, by omega, by omega, by omega⟩
    have hw := walk_spec roomSizeX roomSizeY probIncreaseRoom probIncreaseChange n s hin
    exact ⟨hw.1, fun s1 h1 => ⟨(hw.2 s1 h1).1.1, (hw.2 s1 h1).2⟩⟩

theorem walks_any {W H : Int} (I roomSizeX roomSizeY : Int)
    (probIncreaseRoom probIncreaseChange : Double) (n : Nat) (s : AgentState)
    (hs : s.newMap.HasShape W H) :
    (roomSizeX ≠ 1 → roomSizeY ≠ 1 →
      ∃ s1, walks W H I roomSizeX roomSizeY probIncreaseRoom probIncreaseChange n s = some s1) ∧
    ∀ s1, walks W H I roomSizeX roomSizeY probIncreaseRoom probIncreaseChange n s = some s1 →
      s1.newMap.HasShape W H ∧ s.newMap.Grows s1.newMap := by
  induction n generalizing s with
  | zero =>
    refine ⟨fun _ _ => ⟨s, rfl⟩, ?_⟩
    intro s1 h1
    simp only [walks, Option.some.injEq] at h1
    subst h1
    exact ⟨hs, Map.grows_refl _⟩
  | succ n ih =>
    have hw := walk_any roomSizeX roomSizeY probIncreaseRoom probIncreaseChange I.toNat s hs
    simp only [walks]
    constructor
    · intro hX hY
      obtain ⟨s1, h1⟩ := hw.1 hX hY
      obtain ⟨s2, h2⟩ := (ih s1 (hw.2 s1 h1).1).1 hX hY
      exact ⟨s2, by rw [h1, Option.some_bind, h2]⟩
    · intro s2 h2
      simp only [Option.bind_eq_some] at h2
      obtain ⟨s1, h1, h3⟩ := h2
      obtain ⟨hi1, hg1⟩ := hw.2 s1 h1
      obtain ⟨hi2, hg2⟩ := (ih s1 hi1).2 s2 h3
      exact ⟨hi2, Map.grows_trans hg1 hg2⟩

/-- C17: on a grid of `H` rows of `W` columns, for every configuration, walker
position and sequence of draws, `drunkAgent` returns whenever neither room size
is `1`, and in the grid it returns every cell that differs from the input grid
is `1` and every cell that is `1` in the input grid is `1`; the input grid is a
value of the embedding and is not changed. -/
theorem drunkAgent_only_adds (G : Map) (W H J I roomSizeX roomSizeY : Int)
    (probGenerateRoom probIncreaseRoom probChangeDirection probIncreaseChange : Double)
    (agentX agentY : Int) (rng : Rng) (hs : G.HasShape W H) :
    (roomSizeX ≠ 1 → roomSizeY ≠ 1 →
      ∃ r, drunkAgent G W H J I roomSizeX roomSizeY probGenerateRoom probIncreaseRoom
        probChangeDirection probIncreaseChange agentX agentY rng = some r) ∧
    ∀ r, drunkAgent G W H J I roomSizeX roomSizeY probGenerateRoom probIncreaseRoom
        probChangeDirection probIncreaseChange agentX agentY rng = some r →
      r.1.HasShape W H ∧
      (∀ y x, r.1.read y x ≠ G.read y x → r.1.read y x = some 1) ∧
      (∀ y x, G.read y x = some 1 → r.1.read y x = some 1) := by
  have hw := walks_any I roomSizeX roomSizeY probIncreaseRoom probIncreaseChange J.toNat
    (initState G probGenerateRoom probChangeDirection agentX agentY rng) hs
  unfold drunkAgent
  constructor
  · intro hX hY
    obtain ⟨s1, h1⟩ := hw.1 hX hY
    exact ⟨_, by rw [h1]; rfl⟩
  · intro r hr
    simp only [Option.map_eq_some'] at hr
    obtain ⟨s1, h1, rfl⟩ := hr
    obtain ⟨h2, hg⟩ := hw.2 s1 h1
    refine ⟨h2, ?_, ?_⟩
    · intro y x hne
      rcases hg y x with h | h
      · exact h
      · exact absurd h hne
    · intro y x h1
      rcases hg y x with h | h
      · exact h
      · exact h.trans h1

theorem drunkAgent_only_adds_witness :
    Map.HasShape (constMap 20 10 0) 20 10 ∧
    ((5 : Int) ≠ 1 → (3 : Int) ≠ 1 →
      ∃ r, drunkAgent (constMap 20 10 0) 20 10 5 10 5 3 (Double.round (1 / 10))
        (Double.round (5 / 100)) (Double.round (2 / 10)) (Double.round (3 / 100)) 10 5
        zeroRng = some r) ∧
    ∀ r, drunkAgent (constMap 20 10 0) 20 10 5 10 5 3 (Double.round (1 / 10))
        (Double.round (5 / 100)) (Double.round (2 / 10)) (Double.round (3 / 100)) 10 5
        zeroRng = some r →
      r.1.HasShape 20 10 ∧
      (∀ y x, r.1.read y x ≠ (constMap 20 10 0).read y x → r.1.read y x = some 1) ∧
      (∀ y x, (constMap 20 10 0).read y x = some 1 → r.1.read y x = some 1) :=
  ⟨by decide, drunkAgent_only_adds (constMap 20 10 0) 20 10 5 10 5 3 _ _ _ _ 10 5 zeroRng
    (by decide)⟩

/-! ## cellularAutomata is monotone -/

theorem Double.divInt_mono {c d t : Int} (ht : 0 < t) (h : c ≤ d) :
    Double.le (Double.divInt c t) (Double.divInt d t) = true := by
  unfold Double.divInt
  rw [if_neg (by omega), if_neg (by omega)]
  apply Double.round_mono
  have h1 : (c : ℚ) ≤ (d : ℚ) := by exact_mod_cast h
  have h2 : (0 : ℚ) ≤ (t : ℚ) := by exact_mod_cast (le_of_lt ht)
  exact div_le_div_of_nonneg_right h1 h2

theorem Map.cell_le_cell {G G1 : Map} {W H : Int} (hG : G.HasShape W H)
    (hG1 : G1.HasShape W H)
    (hle : ∀ x y v v1, G.read y x = some v → G1.read y x = some v1 → v ≤ v1)
    {x y : Int} (hx0 : 0 ≤ x) (hx : x < W) (hy0 : 0 ≤ y) (hy : y < H) :
    G.cell x y ≤ G1.cell x y := by
  obtain ⟨v, hv⟩ := Map.read_isSome hG hy0 hy hx0 hx
  obtain ⟨v1, hv1⟩ := Map.read_isSome hG1 hy0 hy hx0 hx
  unfold Map.cell
  rw [hv, hv1]
  exact hle x y v v1 hv hv1

theorem countAt_mono {G G1 : Map} {W H : Int} (hG : G.HasShape W H) (hG1 : G1.HasShape W H)
    (hle : ∀ x y v v1, G.read y x = some v → G1.read y x = some v1 → v ≤ v1)
    (R x y : Int) : countAt G W H R x y ≤ countAt G1 W H R x y := by
  unfold countAt
  apply List.sum_le_sum
  intro dy _
  apply List.sum_le_sum
  intro dx _
  unfold neighbourTerm
  split
  · exact le_refl _
  · split
    · rename_i hb
      exact Map.cell_le_cell hG hG1 hle hb.1 hb.2.1 hb.2.2.1 hb.2.2.2
    · exact le_refl _

theorem newCell_mono {G G1 : Map} {W H : Int} (hG : G.HasShape W H) (hG1 : G1.HasShape W H)
    (hle : ∀ x y v v1, G.read y x = some v → G1.read y x = some v1 → v ≤ v1)
    {R : Int} (hR : 1 ≤ R) {U U1 : Double} (hU : Double.le U1 U = true) (y x : Int) :
    newCell G W H R U y x ≤ newCell G1 W H R U1 y x := by
  have ht : 0 < (2 * R + 1) * (2 * R + 1) - 1 := by nlinarith
  have hr := Double.divInt_mono ht (countAt_mono hG hG1 hle R x y)
  unfold newCell ratioOf
  by_cases h1 : Double.gt (Double.divInt (countAt G W H R x y)
      ((2 * R + 1) * (2 * R + 1) - 1)) U = true
  · have h2 : Double.gt (Double.divInt (countAt G1 W H R x y)
        ((2 * R + 1) * (2 * R + 1) - 1)) U1 = true := by
      unfold Double.gt at h1 ⊢
      exact Double.lt_of_lt_le (Double.lt_of_le_lt hU h1) hr
    rw [if_pos h1, if_pos h2]
  · rw [if_neg h1]
    split <;> decide

/-! ## The majority rule of the driver -/

theorem Map.cell_binary {G : Map} {W H : Int} (hG : G.HasShape W H)
    (hbin : ∀ row ∈ G, ∀ v ∈ row, v = 0 ∨ v = 1) {x y : Int}
    (hx0 : 0 ≤ x) (hx : x < W) (hy0 : 0 ≤ y) (hy : y < H) :
    G.cell x y = if G.read y x = some 1 then 1 else 0 := by
  obtain ⟨v, hv⟩ := Map.read_isSome hG hy0 hy hx0 hx
  have h01 := (Map.forall_cells_iff G (fun v => v = 0 ∨ v = 1)).1 hbin y x v hv
  unfold Map.cell
  rw [hv]
  rcases h01 with rfl | rfl <;> simp

theorem windowSum_eq_onesAround {G : Map} {W H : Int} (hG : G.HasShape W H)
    (hbin : ∀ row ∈ G, ∀ v ∈ row, v = 0 ∨ v = 1) (x y : Int) :
    windowSum G W H 1 x y = (onesAround G W H x y : Int) := by
  unfold windowSum onesAround
  have h1 : ∀ p ∈ (Finset.Icc 0 (W - 1) ×ˢ Finset.Icc 0 (H - 1)).filter
      (fun p : Int × Int => |p.1 - x| ≤ 1 ∧ |p.2 - y| ≤ 1 ∧ p ≠ (x, y)),
      G.cell p.1 p.2 = if G.read p.2 p.1 = some 1 then 1 else 0 := by
    intro p hp
    simp only [Finset.mem_filter, Finset.mem_product, Finset.mem_Icc] at hp
    exact Map.cell_binary hG hbin hp.1.1.1 (by omega) hp.1.2.1 (by omega)
  rw [Finset.sum_congr rfl h1, Finset.sum_boole, Finset.filter_filter]
  congr 2
  apply Finset.filter_congr
  intro p _
  simp only [and_assoc]

theorem neighbourTerm_bounds {G : Map} {W H : Int} (hG : G.HasShape W H)
    (hbin : ∀ row ∈ G, ∀ v ∈ row, v = 0 ∨ v = 1) (x y dx dy : Int) :
    0 ≤ neighbourTerm G W H x y dx dy ∧ neighbourTerm G W H x y dx dy ≤ 1 ∧
    (neighbourTerm G W H x y dx dy ≠ 0 → G.read (y + dy) (x + dx) = some 1) ∧
    (dx = 0 → dy = 0 → neighbourTerm G W H x y dx dy = 0) := by
  unfold neighbourTerm
  split
  · rename_i h0
    simp
  · rename_i h0
    split
    · rename_i hb
      rw [Map.cell_binary hG hbin hb.1 hb.2.1 hb.2.2.1 hb.2.2.2]
      split
      · rename_i h1
        exact ⟨by norm_num, le_refl _, fun _ => h1, fun a b => absurd ⟨a, b⟩ h0⟩
      · exact ⟨le_refl _, by norm_num, fun h => absurd rfl h, fun _ _ => rfl⟩
    · exact ⟨le_refl _, by norm_num, fun h => absurd rfl h, fun _ _ => rfl⟩

theorem countAt_one_unfold (G : Map) (W H x y : Int) :
    countAt G W H 1 x y =
      neighbourTerm G W H x y (-1) (-1) + (neighbourTerm G W H x y 0 (-1) +
        (neighbourTerm G W H x y 1 (-1) + 0)) +
      (neighbourTerm G W H x y (-1) 0 + (neighbourTerm G W H x y 0 0 +
        (neighbourTerm G W H x y 1 0 + 0)) +
      (neighbourTerm G W H x y (-1) 1 + (neighbourTerm G W H x y 0 1 +
        (neighbourTerm G W H x y 1 1 + 0)) + 0)) := by
  unfold countAt
  rw [intRange_one]
  rfl

theorem countAt_one_le_eight {G : Map} {W H : Int} (hG : G.HasShape W H)
    (hbin : ∀ row ∈ G, ∀ v ∈ row, v = 0 ∨ v = 1) (x y : Int) :
    0 ≤ countAt G W H 1 x y ∧ countAt G W H 1 x y ≤ 8 := by
  rw [countAt_one_unfold]
  have b := neighbourTerm_bounds hG hbin x y
  have h1 := b (-1) (-1)
  have h2 := b 0 (-1)
  have h3 := b 1 (-1)
  have h4 := b (-1) 0
  have h5 := (b 0 0).2.2.2 rfl rfl
  have h6 := b 1 0
  have h7 := b (-1) 1
  have h8 := b 0 1
  have h9 := b 1 1
  constructor <;> omega

theorem countAt_one_of_line {G : Map} {W H : Int} (hG : G.HasShape W H)
    (hbin : ∀ row ∈ G, ∀ v ∈ row, v = 0 ∨ v = 1)
    (hline : (∃ y0, ∀ x y, G.read y x = some 1 → y = y0) ∨
      (∃ x0, ∀ x y, G.read y x = some 1 → x = x0)) (x y : Int) :
    countAt G W H 1 x y ≤ 3 := by
  rw [countAt_one_unfold]
  have b := neighbourTerm_bounds hG hbin x y
  have h5 := (b 0 0).2.2.2 rfl rfl
  rcases hline with ⟨y0, hy0⟩ | ⟨x0, hx0⟩
  · have key : ∀ dx dy, y + dy ≠ y0 → neighbourTerm G W H x y dx dy = 0 := by
      intro dx dy hne
      by_contra h
      exact hne (hy0 _ _ ((b dx dy).2.2.1 h))
    have h1 := b (-1) (-1)
    have h2 := b 0 (-1)
    have h3 := b 1 (-1)
    have h4 := b (-1) 0
    have h6 := b 1 0
    have h7 := b (-1) 1
    have h8 := b 0 1
    have h9 := b 1 1
    by_cases ha : y + -1 = y0
    · rw [key (-1) 0 (by omega), key 1 0 (by omega), key (-1) 1 (by omega),
        key 0 1 (by omega), key 1 1 (by omega), h5]
      omega
    · by_cases hb : y + 0 = y0
      · rw [key (-1) (-1) ha, key 0 (-1) ha, key 1 (-1) ha, key (-1) 1 (by omega),
          key 0 1 (by omega), key 1 1 (by omega), h5]
        omega
      · rw [key (-1) (-1) ha, key 0 (-1) ha, key 1 (-1) ha, key (-1) 0 hb, key 1 0 hb, h5]
        omega
  · have key : ∀ dx dy, x + dx ≠ x0 → neighbourTerm G W H x y dx dy = 0 := by
      intro dx dy hne
      by_contra h
      exact hne (hx0 _ _ ((b dx dy).2.2.1 h))
    have h1 := b (-1) (-1)
    have h2 := b 0 (-1)
    have h3 := b 1 (-1)
    have h4 := b (-1) 0
    have h6 := b 1 0
    have h7 := b (-1) 1
    have h8 := b 0 1
    have h9 := b 1 1
    by_cases ha : x + -1 = x0
    · rw [key 0 (-1) (by omega), key 1 (-1) (by omega), key 1 0 (by omega),
        key 0 1 (by omega), key 1 1 (by omega), h5]
      omega
    · by_cases hb : x + 0 = x0
      · rw [key (-1) (-1) ha, key 1 (-1) (by omega), key (-1) 0 ha, key 1 0 (by omega),
          key (-1) 1 ha, key 1 1 (by omega), h5]
        omega
      · rw [key (-1) (-1) ha, key 0 (-1) hb, key (-1) 0 ha, key (-1) 1 ha, key 0 1 hb, h5]
        omega

theorem newCell_half_iff {G : Map} {W H : Int} (hG : G.HasShape W H)
    (hbin : ∀ row ∈ G, ∀ v ∈ row, v = 0 ∨ v = 1) (x y : Int) :
    newCell G W H 1 (Double.fin (1 / 2)) y x = 1 ↔ 5 ≤ countAt G W H 1 x y := by
  have hb := countAt_one_le_eight hG hbin x y
  have habs : |countAt G W H 1 x y| < 2 ^ 53 := by
    rw [abs_of_nonneg hb.1]
    have : (8 : Int) < 2 ^ 53 := by norm_num
    omega
  rw [newCell_eighths G W H _ y x _ rfl habs]
  simp only [Double.lt, decide_eq_true_eq]
  constructor
  · intro h
    have h4 : ((4 : Int) : ℚ) < ((countAt G W H 1 x y : Int) : ℚ) := by
      push_cast
      linarith
    have := Int.cast_lt.1 h4
    omega
  · intro h
    have h4 : ((5 : Int) : ℚ) ≤ ((countAt G W H 1 x y : Int) : ℚ) := Int.cast_le.2 h
    push_cast at h4
    linarith

/-- C19: with `R = 1` and `U = 0.5` (the double `1/2`), on a grid of `H` rows of
`W` columns with cells `0` or `1`, a cell of `cellularAutomata` is `1` iff at
least `5` of its in-bounds neighbours are `1`; so when the cells that are `1` all
lie in one row, or all in one column, the result is the all-zero grid. -/
theorem cellularAutomata_majority (G : Map) (W H : Nat) (hG : G.HasShape W H)
    (hbin : ∀ row ∈ G, ∀ v ∈ row, v = 0 ∨ v = 1) :
    Double.round (1 / 2) = Double.fin (1 / 2) ∧
    ∃ G1, cellularAutomata G W H 1 (Double.fin (1 / 2)) = some G1 ∧
      (∀ x y : Int, 0 ≤ x → x < W → 0 ≤ y → y < H →
        (G1.read y x = some 1 ↔ 5 ≤ onesAround G W H x y)) ∧
      ((∃ y0, ∀ x y, G.read y x = some 1 → y = y0) ∨
          (∃ x0, ∀ x y, G.read y x = some 1 → x = x0) →
        G1 = constMap W H 0) := by
  refine ⟨Double.round_half, ?_⟩
  obtain ⟨G1, h1, hs, h2⟩ := cellularAutomata_spec 1 (Double.fin (1 / 2)) hG
  refine ⟨G1, h1, ?_, ?_⟩
  · intro x y hx0 hx hy0 hy
    rw [h2 x y hx0 hx hy0 hy, Option.some.injEq, newCell_half_iff hG hbin,
      countAt_eq_windowSum, windowSum_eq_onesAround hG hbin]
    constructor <;> intro h <;> omega
  · intro hline
    apply Map.ext_of_read hs (constMap_shape W H 0)
    intro x y hx0 hx hy0 hy
    rw [h2 x y hx0 hx hy0 hy, constMap_read W H 0 hy0 hy hx0 hx]
    congr 1
    have h3 := countAt_one_of_line hG hbin hline x y
    have h4 := newCell_half_iff hG hbin x y
    have h5 : newCell G W H 1 (Double.fin (1 / 2)) y x ≠ 1 := fun h => by
      have := h4.1 h
      omega
    unfold newCell at h5 ⊢
    split
    · rename_i h6
      rw [if_pos h6] at h5
      exact absurd rfl h5
    · rfl

theorem cellularAutomata_majority_witness :
    (Map.HasShape [[0, 0, 0, 0], [1, 1, 1, 1], [0, 0, 0, 0]] (4 : Nat) (3 : Nat) ∧
      ∀ row ∈ ([[0, 0, 0, 0], [1, 1, 1, 1], [0, 0, 0, 0]] : Map), ∀ v ∈ row, v = 0 ∨ v = 1) ∧
    (Double.round (1 / 2) = Double.fin (1 / 2) ∧
    ∃ G1, cellularAutomata [[0, 0, 0, 0], [1, 1, 1, 1], [0, 0, 0, 0]] (4 : Nat) (3 : Nat) 1
        (Double.fin (1 / 2)) = some G1 ∧
      (∀ x y : Int, 0 ≤ x → x < (4 : Nat) → 0 ≤ y → y < (3 : Nat) →
        (G1.read y x = some 1 ↔
          5 ≤ onesAround [[0, 0, 0, 0], [1, 1, 1, 1], [0, 0, 0, 0]] (4 : Nat) (3 : Nat) x y)) ∧
      ((∃ y0, ∀ x y, Map.read [[0, 0, 0, 0], [1, 1, 1, 1], [0, 0, 0, 0]] y x = some 1 → y = y0) ∨
          (∃ x0, ∀ x y,
            Map.read [[0, 0, 0, 0], [1, 1, 1, 1], [0, 0, 0, 0]] y x = some 1 → x = x0) →
        G1 = constMap 4 3 0)) :=
  ⟨⟨by decide, by decide⟩,
    cellularAutomata_majority [[0, 0, 0, 0], [1, 1, 1, 1], [0, 0, 0, 0]] 4 3 (by decide)
      (by decide)⟩

/-! ## The 32-bit cellularAutomata -/

theorem wrapInt_of_range {n : Int} (h1 : -2147483648 ≤ n) (h2 : n < 2147483648) :
    wrapInt n = n := by
  unfold wrapInt
  omega

theorem wrapInt_wrapInt_add (a b : Int) : wrapInt (wrapInt a + b) = wrapInt (a + b) := by
  unfold wrapInt
  omega

theorem wrapInt_idem (a : Int) : wrapInt (wrapInt a) = wrapInt a := by
  unfold wrapInt
  omega

theorem foldlM_add_wrap {α : Type} (f : α → Int) (body : Int → α → Option Int) (l : List α)
    (hbody : ∀ d ∈ l, ∀ c, wrapInt c = c → body c d = some (wrapInt (c + f d)))
    (c0 : Int) (hc0 : wrapInt c0 = c0) :
    l.foldlM body c0 = some (wrapInt (c0 + (l.map f).sum)) := by
  induction l generalizing c0 with
  | nil => simp [hc0]
  | cons d l ih =>
    rw [List.foldlM_cons, hbody d (List.mem_cons_self _ _) c0 hc0]
    simp only [Option.bind_eq_bind, Option.some_bind, List.map_cons, List.sum_cons]
    rw [ih (fun d0 h0 => hbody d0 (List.mem_cons_of_mem _ h0)) _ (wrapInt_idem _),
      wrapInt_wrapInt_add]
    congr 2
    ring

theorem neighbourCount32_eq {G : Map} {W H : Int} (hs : G.HasShape W H) (R x y : Int) :
    neighbourCount32 G W H R x y = some (wrapInt (countAt G W H R x y)) := by
  unfold neighbourCount32 countAt
  rw [foldlM_add_wrap
    (fun dy => ((intRange (-R) R).map (fun dx => neighbourTerm G W H x y dx dy)).sum)]
  · simp
  · intro dy _ c hc
    apply foldlM_add_wrap _ _ _ _ c hc
    intro dx _ c1 hc1
    unfold neighbourTerm
    by_cases h0 : dx = 0 ∧ dy = 0
    · simp [h0, hc1]
    · simp only [h0, if_false]
      by_cases hb : x + dx ≥ 0 ∧ x + dx < W ∧ y + dy ≥ 0 ∧ y + dy < H
      · obtain ⟨v, hv⟩ := Map.read_isSome hs hb.2.2.1 hb.2.2.2 hb.1 hb.2.1
        simp [hb, Map.cell, hv]
      · simp [hb, hc1]
  · rfl

theorem updateCell32_spec {G m : Map} {W H : Int} (R : Int) (U : Double) (hG : G.HasShape W H)
    (hm : m.HasShape W H) {y x : Int} (hy0 : 0 ≤ y) (hy : y < H) (hx0 : 0 ≤ x) (hx : x < W) :
    ∃ m1, updateCell32 G m W H R U y x = some m1 ∧ m1.HasShape W H ∧
      m.PaintedOn m1 (fun y1 x1 => y1 = y ∧ x1 = x) (newCell32 G W H R U) := by
  obtain ⟨m1, h1⟩ := Map.write_isSome (newCell32 G W H R U y x) hm hy0 hy hx0 hx
  refine ⟨m1, ?_, Map.shape_write h1 hm, ?_, ?_⟩
  · unfold updateCell32
    rw [neighbourCount32_eq hG]
    exact h1
  · rintro y1 x1 ⟨rfl, rfl⟩
    rw [Map.read_write h1]
    simp
  · intro y1 x1 hne
    rw [Map.read_write h1]
    simp [hne]

theorem cellularAutomata32_spec {G : Map} {W H : Int} (R : Int) (U : Double)
    (hG : G.HasShape W H) :
    ∃ G1, cellularAutomata32 G W H R U = some G1 ∧ G1.HasShape W H ∧
      ∀ x y, 0 ≤ x → x < W → 0 ≤ y → y < H → G1.read y x = some (newCell32 G W H R U y x) := by
  obtain ⟨G1, h1, hs1, hp1⟩ := paint_fold
    (fun y y1 x1 => y1 = y ∧ 0 ≤ x1 ∧ x1 < W) (newCell32 G W H R U)
    (fun newMap y => (intRange 0 (W - 1)).foldlM (fun newMap x =>
      updateCell32 G newMap W H R U y x) newMap) W H (intRange 0 (H - 1))
    (by
      intro m y hm hy
      rw [mem_intRange] at hy
      obtain ⟨m1, h1, hs1, hp1⟩ := paint_fold
        (fun x y1 x1 => y1 = y ∧ x1 = x) (newCell32 G W H R U)
        (fun newMap x => updateCell32 G newMap W H R U y x) W H (intRange 0 (W - 1))
        (by
          intro m0 x hm0 hx
          rw [mem_intRange] at hx
          exact updateCell32_spec R U hG hm0 hy.1 (by omega) hx.1 (by omega))
        m hm
      refine ⟨m1, h1, hs1, ?_, ?_⟩
      · rintro y1 x1 ⟨rfl, h0, hW⟩
        exact hp1.1 y1 x1 ⟨x1, (mem_intRange _ _ _).2 ⟨h0, by omega⟩, rfl, rfl⟩
      · intro y1 x1 hne
        apply hp1.2
        rintro ⟨x0, hx0, rfl, rfl⟩
        rw [mem_intRange] at hx0
        exact hne ⟨rfl, hx0.1, by omega⟩)
    G hG
  refine ⟨G1, h1, hs1, ?_⟩
  intro x y hx0 hx hy0 hy
  exact hp1.1 y x ⟨y, (mem_intRange _ _ _).2 ⟨hy0, by omega⟩, rfl, hx0, hx⟩

theorem denominator32_eq {R : Int} (h1 : -23170 ≤ R) (h2 : R ≤ 23169) :
    denominator32 R = (2 * R + 1) * (2 * R + 1) - 1 := by
  unfold denominator32
  rw [@wrapInt_of_range (2 * R) (by omega) (by omega),
    @wrapInt_of_range (2 * R + 1) (by omega) (by omega)]
  have h3 : (2 * R + 1) * (2 * R + 1) ≤ 2147395600 := by nlinarith
  have h4 : 0 ≤ (2 * R + 1) * (2 * R + 1) := mul_self_nonneg _
  rw [@wrapInt_of_range ((2 * R + 1) * (2 * R + 1)) (by omega) (by omega),
    wrapInt_of_range (by omega) (by omega)]

/-! ## Bounds that exclude overflow -/

theorem sum_window_indicator (R : Int) (hR : 0 ≤ R) :
    ∑ dy ∈ Finset.Icc (-R) R, ∑ dx ∈ Finset.Icc (-R) R,
      (if dx = 0 ∧ dy = 0 then (0 : Int) else 1) = (2 * R + 1) * (2 * R + 1) - 1 := by
  have h1 : ∀ dy ∈ Finset.Icc (-R) R,
      ∑ dx ∈ Finset.Icc (-R) R, (if dx = 0 ∧ dy = 0 then (0 : Int) else 1) =
        (2 * R + 1) - (if dy = 0 then 1 else 0) := fun dy _ =>
    sum_Icc_indicator_zero R hR (dy = 0)
  rw [Finset.sum_congr rfl h1, Finset.sum_sub_distrib,
    Finset.sum_ite_eq' (Finset.Icc (-R) R) 0 (fun _ => (1 : Int)),
    if_pos (by simp only [Finset.mem_Icc]; omega)]
  simp only [Finset.sum_const, Int.card_Icc, smul_eq_mul, nsmul_eq_mul]
  have : ((R + 1 - -R).toNat : Int) = 2 * R + 1 := by omega
  rw [this]

theorem neighbourTerm_abs_le {G : Map} {W H M : Int} (hG : G.HasShape W H)
    (hM : ∀ row ∈ G, ∀ v ∈ row, -M ≤ v ∧ v ≤ M) (hM0 : 0 ≤ M) (x y dx dy : Int) :
    -(M * (if dx = 0 ∧ dy = 0 then 0 else 1)) ≤ neighbourTerm G W H x y dx dy ∧
    neighbourTerm G W H x y dx dy ≤ M * (if dx = 0 ∧ dy = 0 then 0 else 1) := by
  unfold neighbourTerm
  by_cases h0 : dx = 0 ∧ dy = 0
  · simp [h0]
  · simp only [h0, if_false, mul_one]
    split
    · rename_i hb
      obtain ⟨v, hv⟩ := Map.read_isSome hG hb.2.2.1 hb.2.2.2 hb.1 hb.2.1
      have := (Map.forall_cells_iff G (fun v => -M ≤ v ∧ v ≤ M)).1 hM _ _ v hv
      unfold Map.cell
      rw [hv]
      exact this
    · constructor <;> omega

theorem countAt_abs_le {G : Map} {W H M : Int} (hG : G.HasShape W H)
    (hM : ∀ row ∈ G, ∀ v ∈ row, -M ≤ v ∧ v ≤ M) (hM0 : 0 ≤ M) {R : Int} (hR : 0 ≤ R)
    (x y : Int) :
    -(M * ((2 * R + 1) * (2 * R + 1) - 1)) ≤ countAt G W H R x y ∧
    countAt G W H R x y ≤ M * ((2 * R + 1) * (2 * R + 1) - 1) := by
  have hsum : countAt G W H R x y = ∑ dy ∈ Finset.Icc (-R) R, ∑ dx ∈ Finset.Icc (-R) R,
      neighbourTerm G W H x y dx dy := by
    unfold countAt
    rw [sum_intRange]
    simp only [sum_intRange]
  have hind : M * ((2 * R + 1) * (2 * R + 1) - 1) = ∑ dy ∈ Finset.Icc (-R) R,
      ∑ dx ∈ Finset.Icc (-R) R, M * (if dx = 0 ∧ dy = 0 then (0 : Int) else 1) := by
    rw [← sum_window_indicator R hR, Finset.mul_sum]
    apply Finset.sum_congr rfl
    intro dy _
    rw [Finset.mul_sum]
  rw [hsum, hind, ← Finset.sum_neg_distrib]
  constructor
  · apply Finset.sum_le_sum
    intro dy _
    rw [← Finset.sum_neg_distrib]
    apply Finset.sum_le_sum
    intro dx _
    exact (neighbourTerm_abs_le hG hM hM0 x y dx dy).1
  · apply Finset.sum_le_sum
    intro dy _
    apply Finset.sum_le_sum
    intro dx _
    exact (neighbourTerm_abs_le hG hM hM0 x y dx dy).2

theorem newCell32_eq_newCell {G : Map} {W H M R : Int} (U : Double) (hG : G.HasShape W H)
    (hM : ∀ row ∈ G, ∀ v ∈ row, -M ≤ v ∧ v ≤ M) (hR0 : 0 ≤ R) (hR : R ≤ 23169)
    (hMR : M * ((2 * R + 1) ^ 2 - 1) < 2 ^ 31) (y x : Int) :
    newCell32 G W H R U y x = newCell G W H R U y x := by
  have hsq : (2 * R + 1) ^ 2 - 1 = (2 * R + 1) * (2 * R + 1) - 1 := by ring
  rw [hsq] at hMR
  have hc : wrapInt (countAt G W H R x y) = countAt G W H R x y := by
    by_cases hM0 : 0 ≤ M
    · have hb := countAt_abs_le hG hM hM0 hR0 x y
      apply wrapInt_of_range <;> omega
    · have hG0 : ∀ row ∈ G, ∀ v ∈ row, -(0 : Int) ≤ v ∧ v ≤ 0 := by
        intro row hrow v hv
        have := hM row hrow v hv
        omega
      have hb := countAt_abs_le hG hG0 (le_refl 0) hR0 x y
      apply wrapInt_of_range <;> omega
  unfold newCell32 newCell ratioOf32 ratioOf
  rw [hc, denominator32_eq (by omega) hR]

/-- Within the bounds that exclude every overflow, the 32-bit computation and
the computation in mathematical integers return the same grid. -/
theorem cellularAutomata32_eq {G : Map} {W H M R : Int} (U : Double) (hG : G.HasShape W H)
    (hM : ∀ row ∈ G, ∀ v ∈ row, -M ≤ v ∧ v ≤ M) (hR0 : 0 ≤ R) (hR : R ≤ 23169)
    (hMR : M * ((2 * R + 1) ^ 2 - 1) < 2 ^ 31) :
    cellularAutomata32 G W H R U = cellularAutomata G W H R U := by
  obtain ⟨G1, h1, hs1, hc1⟩ := cellularAutomata32_spec R U hG
  obtain ⟨G2, h2, hs2, hc2⟩ := cellularAutomata_spec R U hG
  rw [h1, h2]
  congr 1
  apply Map.ext_of_read hs1 hs2
  intro x y hx0 hx hy0 hy
  rw [hc1 x y hx0 hx hy0 hy, hc2 x y hx0 hx hy0 hy, newCell32_eq_newCell U hG hM hR0 hR hMR]

theorem Double.gt_round_zero_of_nonpos {q : ℚ} (hq : q ≤ 0) :
    Double.gt (Double.round q) (Double.fin 0) = false := by
  have h := Double.round_mono hq
  rw [Double.round_zero] at h
  exact Double.lt_false_of_le h

theorem Double.divInt_neg_not_gt_zero {c t : Int} (hc : 0 ≤ c) (ht : t < 0) :
    Double.gt (Double.divInt c t) (Double.fin 0) = false := by
  unfold Double.divInt
  rw [if_neg (by omega)]
  apply Double.gt_round_zero_of_nonpos
  apply div_nonpos_of_nonneg_of_nonpos
  · exact_mod_cast hc
  · exact_mod_cast (le_of_lt ht)

/-! ## cellularAutomata on 32-bit int: cells, validation, monotonicity -/

theorem Double.divInt_nonpos_not_gt_zero {c t : Int} (hc : c ≤ 0) (ht : 0 < t) :
    Double.gt (Double.divInt c t) (Double.fin 0) = false := by
  unfold Double.divInt
  rw [if_neg (by omega)]
  apply Double.gt_round_zero_of_nonpos
  apply div_nonpos_of_nonpos_of_nonneg
  · exact_mod_cast hc
  · exact_mod_cast (le_of_lt ht)

theorem Double.divInt_gt_zero {c t : Int} (hc : 1 ≤ c) (ht0 : 0 < t) (ht : t ≤ 4294967296) :
    Double.gt (Double.divInt c t) (Double.fin 0) = true := by
  have hb : |((1 : ℤ) : ℚ) * (2 : ℚ) ^ (-32 : ℤ)| < (2 : ℚ) ^ 1024 := by
    rw [abs_of_pos (by positivity)]
    calc ((1 : ℤ) : ℚ) * (2 : ℚ) ^ (-32 : ℤ) ≤ 1 := by norm_num
      _ < (2 : ℚ) ^ 1024 := by
        exact lt_of_lt_of_le (by norm_num) (pow_le_pow_right₀ (by norm_num : (1 : ℚ) ≤ 2)
          (by norm_num : 1 ≤ 1024))
  have hsmall := Double.round_dyadic 1 (-32) (by norm_num) (by norm_num) hb
  have hq : ((1 : ℤ) : ℚ) * (2 : ℚ) ^ (-32 : ℤ) ≤ (c : ℚ) / (t : ℚ) := by
    have h1 : (1 : ℚ) ≤ (c : ℚ) := by exact_mod_cast hc
    have h2 : (0 : ℚ) < (t : ℚ) := by exact_mod_cast ht0
    have h3 : (t : ℚ) ≤ 4294967296 := by exact_mod_cast ht
    rw [le_div_iff₀ h2]
    have h4 : ((1 : ℤ) : ℚ) * (2 : ℚ) ^ (-32 : ℤ) = 1 / 4294967296 := by norm_num
    rw [h4]
    calc (1 : ℚ) / 4294967296 * (t : ℚ) ≤ 1 / 4294967296 * 4294967296 := by
          apply mul_le_mul_of_nonneg_left h3 (by norm_num)
      _ = 1 := by norm_num
      _ ≤ (c : ℚ) := h1
  have hm := Double.round_mono hq
  rw [hsmall] at hm
  unfold Double.divInt
  rw [if_neg (by omega)]
  unfold Double.gt
  refine Double.lt_of_lt_le ?_ hm
  simp only [Double.lt, decide_eq_true_eq]
  positivity

/-- C1, as stated, fails on 32-bit `int`. On `[[2147483647, 0, 2147483647]]`
with `R = 1`, `U = 0` the middle cell is `0`, since `count` wraps to `-2`, while
the sum of its neighbours over `8` is greater than `0`; on `[[1, 1]]` with
`R = 23170`, `U = 0` the cell `(0, 0)` is `0`, since `(2R+1)*(2R+1) - 1` wraps to
a negative `int`, while `1` over `(2R+1)^2 - 1` is greater than `0`. -/
theorem cellularAutomata32_wraps :
    (∃ G1, cellularAutomata32 [[2147483647, 0, 2147483647]] 3 1 1 (Double.fin 0) = some G1 ∧
      G1.read 0 1 = some 0 ∧
      (if Double.gt (Double.divInt (windowSum [[2147483647, 0, 2147483647]] 3 1 1 1 0)
        ((2 * 1 + 1) ^ 2 - 1)) (Double.fin 0) then (1 : Int) else 0) = 1) ∧
    (∃ G1, cellularAutomata32 [[1, 1]] 2 1 23170 (Double.fin 0) = some G1 ∧
      G1.read 0 0 = some 0 ∧
      (if Double.gt (Double.divInt (windowSum [[1, 1]] 2 1 23170 0 0)
        ((2 * 23170 + 1) ^ 2 - 1)) (Double.fin 0) then (1 : Int) else 0) = 1) := by
  constructor
  · obtain ⟨G1, h1, _, h2⟩ := cellularAutomata32_spec 1 (Double.fin 0)
      (show Map.HasShape [[2147483647, 0, 2147483647]] 3 1 by decide)
    refine ⟨G1, h1, ?_, ?_⟩
    · rw [h2 1 0 (by decide) (by decide) (by decide) (by decide)]
      have hc : countAt [[2147483647, 0, 2147483647]] 3 1 1 1 0 = 4294967294 := by decide
      have hw : wrapInt 4294967294 = -2 := by decide
      have hd : denominator32 1 = 8 := by decide
      unfold newCell32 ratioOf32
      rw [hc, hw, hd, Double.divInt_nonpos_not_gt_zero (by decide) (by decide)]
      rfl
    · have hs : windowSum [[2147483647, 0, 2147483647]] 3 1 1 1 0 = 4294967294 := by decide
      have hd : ((2 : Int) * 1 + 1) ^ 2 - 1 = 8 := by decide
      rw [hs, hd, Double.divInt_gt_zero (by decide) (by decide) (by decide)]
      rfl
  · obtain ⟨G1, h1, _, h2⟩ := cellularAutomata32_spec 23170 (Double.fin 0)
      (show Map.HasShape [[1, 1]] 2 1 by decide)
    have hs : windowSum [[1, 1]] 2 1 23170 0 0 = 1 := by decide
    refine ⟨G1, h1, ?_, ?_⟩
    · rw [h2 0 0 (by decide) (by decide) (by decide) (by decide)]
      have hw : wrapInt 1 = 1 := by decide
      have hd : denominator32 23170 = -2147479016 := by decide
      unfold newCell32 ratioOf32
      rw [countAt_eq_windowSum, hs, hw, hd,
        Double.divInt_neg_not_gt_zero (by decide) (by decide)]
      rfl
    · have hd : ((2 : Int) * 23170 + 1) ^ 2 - 1 = 2147488280 := by decide
      rw [hs, hd, Double.divInt_gt_zero (by decide) (by decide) (by decide)]
      rfl

/-- C1, amended: on a grid `G` of `H` rows of `W` columns whose cells are at most
`M` in absolute value, for `1 <= R <= 23169` and `M * ((2R+1)^2 - 1) < 2^31` (so
that neither `count` nor the denominator overflows a 32-bit `int`),
`cellularAutomata` returns a grid whose cell `(x, y)` is `1` when the double
quotient (the code's `count / double(...)`, correctly rounded) of `count` by
`(2R+1)^2 - 1` is greater than `U` and `0` otherwise, so `0` when the quotient
equals `U`; `count` is the sum of the input grid over the in-bounds cells of the
window of radius `R` around `(x, y)` without its centre, the denominator is the
full window size, and the value depends on the input grid only. -/
theorem cellularAutomata32_cell (G : Map) (W H R M : Int) (U : Double) (hG : G.HasShape W H)
    (hR1 : 1 ≤ R) (hR : R ≤ 23169) (hM : ∀ row ∈ G, ∀ v ∈ row, -M ≤ v ∧ v ≤ M)
    (hMR : M * ((2 * R + 1) ^ 2 - 1) < 2 ^ 31) :
    ∃ G1, cellularAutomata32 G W H R U = some G1 ∧
      ∀ x y, 0 ≤ x → x < W → 0 ≤ y → y < H →
        G1.read y x = some (if Double.gt
          (Double.divInt (windowSum G W H R x y) ((2 * R + 1) ^ 2 - 1)) U then 1 else 0) ∧
        (Double.divInt (windowSum G W H R x y) ((2 * R + 1) ^ 2 - 1) = U →
          G1.read y x = some 0) := by
  obtain ⟨G1, h1, _, h2⟩ := cellularAutomata32_spec R U hG
  refine ⟨G1, h1, ?_⟩
  intro x y hx0 hx hy0 hy
  have h3 := h2 x y hx0 hx hy0 hy
  rw [newCell32_eq_newCell U hG hM (by omega) hR hMR] at h3
  unfold newCell at h3
  rw [countAt_eq_windowSum, ratioOf_sq] at h3
  refine ⟨h3, ?_⟩
  intro hU
  rw [h3, hU]
  simp [Double.gt, Double.lt_irrefl]

theorem cellularAutomata32_cell_witness :
    (Map.HasShape [[1, 1, 1], [1, 0, 1], [1, 1, 1]] 3 3 ∧ (1 : Int) ≤ 1 ∧ (1 : Int) ≤ 23169 ∧
      (∀ row ∈ ([[1, 1, 1], [1, 0, 1], [1, 1, 1]] : Map), ∀ v ∈ row, -(1 : Int) ≤ v ∧ v ≤ 1) ∧
      (1 : Int) * ((2 * 1 + 1) ^ 2 - 1) < 2 ^ 31) ∧
    ∃ G1, cellularAutomata32 [[1, 1, 1], [1, 0, 1], [1, 1, 1]] 3 3 1 (Double.fin (1 / 2)) =
        some G1 ∧
      ∀ x y, 0 ≤ x → x < 3 → 0 ≤ y → y < 3 →
        G1.read y x = some (if Double.gt
          (Double.divInt (windowSum [[1, 1, 1], [1, 0, 1], [1, 1, 1]] 3 3 1 x y)
            ((2 * 1 + 1) ^ 2 - 1)) (Double.fin (1 / 2)) then 1 else 0) ∧
        (Double.divInt (windowSum [[1, 1, 1], [1, 0, 1], [1, 1, 1]] 3 3 1 x y)
            ((2 * 1 + 1) ^ 2 - 1) = Double.fin (1 / 2) →
          G1.read y x = some 0) :=
  ⟨by decide, cellularAutomata32_cell _ 3 3 1 1 _ (by decide) (by decide) (by decide)
    (by decide) (by decide)⟩

/-- C14, amended: `cellularAutomata` validates neither `R` nor `U` and has no
failure path. On a grid of `H` rows of `W` columns, for every radius with
`-23170 <= R <= 23169` (so that the `int` denominator does not overflow), also
`R < 1`, and every threshold, also outside `[0, 1]`, it returns a grid of `H`
rows of `W` columns with every cell `0` or `1`; when `R < 1` the count of every
cell is `0`, so every cell of the result is `1` when the double quotient of `0`
by `(2R+1)^2 - 1` is greater than `U` and `0` otherwise. -/
theorem cellularAutomata32_unchecked (G : Map) (W H R : Int) (U : Double)
    (hG : G.HasShape W H) (hlo : -23170 ≤ R) (hhi : R ≤ 23169) :
    ∃ G1, cellularAutomata32 G W H R U = some G1 ∧ G1.HasShape W H ∧
      (∀ row ∈ G1, ∀ v ∈ row, v = 0 ∨ v = 1) ∧
      (R < 1 → ∀ x y, 0 ≤ x → x < W → 0 ≤ y → y < H →
        neighbourCount32 G W H R x y = some 0 ∧
        G1.read y x =
          some (if Double.gt (Double.divInt 0 ((2 * R + 1) ^ 2 - 1)) U then 1 else 0)) := by
  obtain ⟨G1, h1, hs, h2⟩ := cellularAutomata32_spec R U hG
  refine ⟨G1, h1, hs, ?_, ?_⟩
  · rw [Map.forall_cells_iff]
    intro y x v hv
    obtain ⟨hy0, hy, hx0, hx⟩ := Map.read_inBounds hs hv
    rw [h2 x y hx0 hx hy0 hy] at hv
    simp only [Option.some.injEq] at hv
    subst hv
    unfold newCell32
    split <;> simp
  · intro hR x y hx0 hx hy0 hy
    have hc : wrapInt (countAt G W H R x y) = 0 := by
      rw [countAt_small hG R x y hR]
      decide
    refine ⟨by rw [neighbourCount32_eq hG, hc], ?_⟩
    rw [h2 x y hx0 hx hy0 hy]
    unfold newCell32 ratioOf32
    have hsq : (2 * R + 1) ^ 2 - 1 = (2 * R + 1) * (2 * R + 1) - 1 := by ring
    rw [hc, denominator32_eq hlo hhi, hsq]

theorem cellularAutomata32_unchecked_witness :
    (Map.HasShape [[1, 1], [1, 1]] 2 2 ∧ (-23170 : Int) ≤ 0 ∧ (0 : Int) ≤ 23169) ∧
    ∃ G1, cellularAutomata32 [[1, 1], [1, 1]] 2 2 0 (Double.fin (1 / 2)) = some G1 ∧
      G1.HasShape 2 2 ∧ (∀ row ∈ G1, ∀ v ∈ row, v = 0 ∨ v = 1) ∧
      ((0 : Int) < 1 → ∀ x y, 0 ≤ x → x < 2 → 0 ≤ y → y < 2 →
        neighbourCount32 [[1, 1], [1, 1]] 2 2 0 x y = some 0 ∧
        G1.read y x =
          some (if Double.gt (Double.divInt 0 ((2 * 0 + 1) ^ 2 - 1)) (Double.fin (1 / 2))
            then 1 else 0)) :=
  ⟨by decide,
    cellularAutomata32_unchecked [[1, 1], [1, 1]] 2 2 0 (Double.fin (1 / 2)) (by decide)
      (by decide) (by decide)⟩

/-- C18, as stated, fails on 32-bit `int`: `[[1, 0, 1]]` is cell by cell at
most `[[2147483647, 0, 2147483647]]`, yet with `R = 1` and `U = 0` for both the
middle cell is `1` for the first grid and `0` for the second, whose `count`
wraps to `-2`. -/
theorem cellularAutomata32_not_mono :
    (∀ x y v v1, Map.read [[1, 0, 1]] y x = some v →
      Map.read [[2147483647, 0, 2147483647]] y x = some v1 → v ≤ v1) ∧
    Double.le (Double.fin 0) (Double.fin 0) = true ∧
    ∃ N N1, cellularAutomata32 [[1, 0, 1]] 3 1 1 (Double.fin 0) = some N ∧
      cellularAutomata32 [[2147483647, 0, 2147483647]] 3 1 1 (Double.fin 0) = some N1 ∧
      N.read 0 1 = some 1 ∧ N1.read 0 1 = some 0 := by
  have hs : Map.HasShape [[1, 0, 1]] 3 1 := by decide
  have hs1 : Map.HasShape [[2147483647, 0, 2147483647]] 3 1 := by decide
  refine ⟨?_, by simp [Double.le], ?_⟩
  · intro x y v v1 hv hv1
    obtain ⟨hy0, hy, hx0, hx⟩ := Map.read_inBounds hs hv
    have hy1 : y = 0 := by omega
    have hx1 : x = 0 ∨ x = 1 ∨ x = 2 := by omega
    subst hy1
    rcases hx1 with rfl | rfl | rfl <;> simp [Map.read] at hv hv1 <;> omega
  · obtain ⟨N, h1, _, h2⟩ := cellularAutomata32_spec 1 (Double.fin 0) hs
    obtain ⟨N1, h3, _, h4⟩ := cellularAutomata32_spec 1 (Double.fin 0) hs1
    have hd : denominator32 1 = 8 := by decide
    refine ⟨N, N1, h1, h3, ?_, ?_⟩
    · rw [h2 1 0 (by decide) (by decide) (by decide) (by decide)]
      have hc : countAt [[1, 0, 1]] 3 1 1 1 0 = 2 := by decide
      have hw : wrapInt 2 = 2 := by decide
      unfold newCell32 ratioOf32
      rw [hc, hw, hd, Double.divInt_gt_zero (by decide) (by decide) (by decide)]
      rfl
    · rw [h4 1 0 (by decide) (by decide) (by decide) (by decide)]
      have hc : countAt [[2147483647, 0, 2147483647]] 3 1 1 1 0 = 4294967294 := by decide
      have hw : wrapInt 4294967294 = -2 := by decide
      unfold newCell32 ratioOf32
      rw [hc, hw, hd, Double.divInt_nonpos_not_gt_zero (by decide) (by decide)]
      rfl

/-- C18, amended: for `1 <= R <= 23169`, two grids `G` and `G1` of `H` rows of
`W` columns whose cells are at most `M` in absolute value with
`M * ((2R+1)^2 - 1) < 2^31` (so that no `count` overflows a 32-bit `int`), every
cell of `G` at most the same cell of `G1`, and thresholds `U1 <= U`, each cell of
`cellularAutomata` on `G` with `U` is at most the same cell of
`cellularAutomata` on `G1` with `U1`. -/
theorem cellularAutomata32_mono (G G1 : Map) (W H R M : Int) (U U1 : Double)
    (hG : G.HasShape W H) (hG1 : G1.HasShape W H) (hR1 : 1 ≤ R) (hR : R ≤ 23169)
    (hM : ∀ row ∈ G, ∀ v ∈ row, -M ≤ v ∧ v ≤ M)
    (hM1 : ∀ row ∈ G1, ∀ v ∈ row, -M ≤ v ∧ v ≤ M)
    (hMR : M * ((2 * R + 1) ^ 2 - 1) < 2 ^ 31)
    (hle : ∀ x y v v1, G.read y x = some v → G1.read y x = some v1 → v ≤ v1)
    (hU : Double.le U1 U = true) :
    ∃ N N1, cellularAutomata32 G W H R U = some N ∧ cellularAutomata32 G1 W H R U1 = some N1 ∧
      ∀ x y, 0 ≤ x → x < W → 0 ≤ y → y < H →
        ∃ v v1, N.read y x = some v ∧ N1.read y x = some v1 ∧ v ≤ v1 := by
  obtain ⟨N, h1, _, h2⟩ := cellularAutomata32_spec R U hG
  obtain ⟨N1, h3, _, h4⟩ := cellularAutomata32_spec R U1 hG1
  refine ⟨N, N1, h1, h3, ?_⟩
  intro x y hx0 hx hy0 hy
  refine ⟨_, _, h2 x y hx0 hx hy0 hy, h4 x y hx0 hx hy0 hy, ?_⟩
  rw [newCell32_eq_newCell U hG hM (by omega) hR hMR,
    newCell32_eq_newCell U1 hG1 hM1 (by omega) hR hMR]
  exact newCell_mono hG hG1 hle hR1 hU y x

theorem cellularAutomata32_mono_witness :
    (Map.HasShape [[0, 1, 0], [1, 0, 1], [0, 1, 0]] 3 3 ∧
      Map.HasShape [[1, 1, 0], [1, 0, 1], [1, 1, 1]] 3 3 ∧ (1 : Int) ≤ 1 ∧ (1 : Int) ≤ 23169 ∧
      (∀ row ∈ ([[0, 1, 0], [1, 0, 1], [0, 1, 0]] : Map), ∀ v ∈ row, -(1 : Int) ≤ v ∧ v ≤ 1) ∧
      (∀ row ∈ ([[1, 1, 0], [1, 0, 1], [1, 1, 1]] : Map), ∀ v ∈ row, -(1 : Int) ≤ v ∧ v ≤ 1) ∧
      (1 : Int) * ((2 * 1 + 1) ^ 2 - 1) < 2 ^ 31 ∧
      (∀ x y v v1, Map.read [[0, 1, 0], [1, 0, 1], [0, 1, 0]] y x = some v →
        Map.read [[1, 1, 0], [1, 0, 1], [1, 1, 1]] y x = some v1 → v ≤ v1) ∧
      Double.le (Double.fin (1 / 4)) (Double.fin (1 / 2)) = true) ∧
    ∃ N N1, cellularAutomata32 [[0, 1, 0], [1, 0, 1], [0, 1, 0]] 3 3 1 (Double.fin (1 / 2)) =
        some N ∧
      cellularAutomata32 [[1, 1, 0], [1, 0, 1], [1, 1, 1]] 3 3 1 (Double.fin (1 / 4)) = some N1 ∧
      ∀ x y, 0 ≤ x → x < 3 → 0 ≤ y → y < 3 →
        ∃ v v1, N.read y x = some v ∧ N1.read y x = some v1 ∧ v ≤ v1 := by
  have hs : Map.HasShape [[0, 1, 0], [1, 0, 1], [0, 1, 0]] 3 3 := by decide
  have hs1 : Map.HasShape [[1, 1, 0], [1, 0, 1], [1, 1, 1]] 3 3 := by decide
  have hle : ∀ x y v v1, Map.read [[0, 1, 0], [1, 0, 1], [0, 1, 0]] y x = some v →
      Map.read [[1, 1, 0], [1, 0, 1], [1, 1, 1]] y x = some v1 → v ≤ v1 := by
    intro x y v v1 hv hv1
    obtain ⟨hy0, hy, hx0, hx⟩ := Map.read_inBounds hs hv
    have hx1 : x = 0 ∨ x = 1 ∨ x = 2 := by omega
    have hy1 : y = 0 ∨ y = 1 ∨ y = 2 := by omega
    rcases hx1 with rfl | rfl | rfl <;> rcases hy1 with rfl | rfl | rfl <;>
      simp [Map.read] at hv hv1 <;> omega
  have hU : Double.le (Double.fin (1 / 4)) (Double.fin (1 / 2)) = true := by
    simp only [Double.le, decide_eq_true_eq]
    norm_num
  exact ⟨⟨hs, hs1, by decide, by decide, by decide, by decide, by decide, hle, hU⟩,
    cellularAutomata32_mono _ _ 3 3 1 1 _ _ hs hs1 (by decide) (by decide) (by decide)
      (by decide) (by decide) hle hU⟩

/-- C14, as stated, fails: `cellularAutomata` with `R = 0` returns a grid, and
so does `cellularAutomata` with the threshold `2`, outside `[0, 1]`; the same
holds with `count` and the denominator computed in 32-bit `int`. -/
theorem cellularAutomata_no_validation :
    cellularAutomata [[1, 1], [1, 1]] 2 2 0 (Double.fin (1 / 2)) = some [[0, 0], [0, 0]] ∧
    (∃ G1, cellularAutomata [[1, 1], [1, 1]] 2 2 1 (Double.fin 2) = some G1) ∧
    cellularAutomata32 [[1, 1], [1, 1]] 2 2 0 (Double.fin (1 / 2)) = some [[0, 0], [0, 0]] ∧
    ∃ G1, cellularAutomata32 [[1, 1], [1, 1]] 2 2 1 (Double.fin 2) = some G1 := by
  refine ⟨by decide, ?_, by decide, ?_⟩
  · obtain ⟨G1, h1, _⟩ := cellularAutomata_spec 1 (Double.fin 2)
      (show Map.HasShape [[1, 1], [1, 1]] 2 2 by decide)
    exact ⟨G1, h1⟩
  · obtain ⟨G1, h1, _⟩ := cellularAutomata32_spec 1 (Double.fin 2)
      (show Map.HasShape [[1, 1], [1, 1]] 2 2 by decide)
    exact ⟨G1, h1⟩

end RuleBasedPCG
